import Mathlib

/-!
Verification of the production-scheduler core against its specification.

The TypeScript sources are embedded shallowly:

* Instants (Luxon `DateTime` values in UTC) are modelled as `Int` minutes
  since an epoch chosen to be a Sunday at 00:00 UTC, matching the spec's
  minute-resolution timestamps.  `parseDate`/`formatDate` are inverse
  bijections between ISO strings and instants, so they are modelled as the
  identity on `Int` and dropped at call sites.
* JavaScript `Map`s are modelled as association lists with
  insert-or-replace (`assocSet`), preserving the insertion order that JS
  `Map` iteration guarantees.
* The bounded source loops (`maxDays = 14`, `maxIterations = 1000`,
  `maxIterations = 10000`) become structural fuel recursion with the same
  bounds.  The two unbounded `while` loops of the source (conflict
  push-forward and Kahn's algorithm) receive fuel that is proved
  sufficient, so the fuel-exhaustion branch is unreachable.
-/

namespace ProdSched

/-! ### Time primitives (Luxon arithmetic on UTC instants, minute resolution) -/

/-- Number of whole days since the Sunday epoch (floor division, valid for
instants before the epoch as well). -/
def dayNumber (t : Int) : Int := t / 1440

/-- The midnight instant of the calendar day containing `t`
(`date.set({hour: 0, minute: 0, second: 0, millisecond: 0})`). -/
def dayStartOf (t : Int) : Int := 1440 * dayNumber t

/-- Minute of day, in `[0, 1440)`. -/
def minuteOfDay (t : Int) : Int := t % 1440

/-- Luxon `date.hour` for the instant `t`. -/
def hourOfDay (t : Int) : Int := minuteOfDay t / 60

/-- Luxon `date.minute` for the instant `t`. -/
def minuteOfHour (t : Int) : Int := minuteOfDay t % 60

/-- Spec weekday of `t` (0=Sunday…6=Saturday).  The source computes Luxon's
`date.weekday` (1=Mon…7=Sun) and converts with `luxonToSpecDayOfWeek`
(`weekday % 7`); with a Sunday epoch the composite is `dayNumber t % 7`. -/
def dayOfWeek (t : Int) : Int := dayNumber t % 7

/-! ### Data model (`src/reflow/types.ts`) -/

/-- Shift definition for work centers. -/
structure Shift where
  dayOfWeek : Int
  startHour : Int
  endHour : Int
  deriving DecidableEq

/-- Maintenance window (blocked time on a work center); dates are instants. -/
structure MaintenanceWindow where
  startDate : Int
  endDate : Int
  reason : Option String := none
  deriving DecidableEq

/-! ### Date utilities (`src/utils/date-utils.ts`) -/

/-- `getShiftForDay`: the first shift whose `dayOfWeek` matches. -/
def getShiftForDay (dayOfWeek : Int) (shifts : List Shift) : Option Shift :=
  shifts.find? (fun s => s.dayOfWeek == dayOfWeek)

/-- `isWithinShift`: a shift is defined for the weekday of `date` and the
hour of day falls in `[startHour, endHour)`. -/
def isWithinShift (date : Int) (shifts : List Shift) : Bool :=
  match getShiftForDay (dayOfWeek date) shifts with
  | none => false
  | some shift => decide (shift.startHour ≤ hourOfDay date) && decide (hourOfDay date < shift.endHour)

/-- `getRemainingShiftMinutes`: minutes from `date` to the end of the
current day's shift, clamped at 0 (`Math.max(0, Math.floor(diff))`). -/
def getRemainingShiftMinutes (date : Int) (shifts : List Shift) : Int :=
  match getShiftForDay (dayOfWeek date) shifts with
  | none => 0
  | some shift => max 0 (dayStartOf date + shift.endHour * 60 - date)

/-- Loop body of `getNextShiftStart`; `orig` is the argument returned by the
fallback after the 14-day horizon. -/
def getNextShiftStartAux (shifts : List Shift) (orig : Int) : Nat → Int → Int
  | 0, _ => orig
  | fuel + 1, current =>
    match getShiftForDay (dayOfWeek current) shifts with
    | some shift =>
      let shiftStart := dayStartOf current + shift.startHour * 60
      let shiftEnd := dayStartOf current + shift.endHour * 60
      if current < shiftStart then shiftStart
      else if shiftStart ≤ current ∧ current < shiftEnd then current
      else getNextShiftStartAux shifts orig fuel (dayStartOf current + 1440)
    | none => getNextShiftStartAux shifts orig fuel (dayStartOf current + 1440)

/-- `getNextShiftStart`: scan at most `maxDays = 14` calendar days for the
next instant inside a shift; give up and return `date` afterwards. -/
def getNextShiftStart (date : Int) (shifts : List Shift) : Int :=
  getNextShiftStartAux shifts date 14 date

/-- `calculateEndDate`: simple end-date computation without shift logic. -/
def calculateEndDate (startDate : Int) (workingMinutes : Int) : Int :=
  startDate + workingMinutes

/-- `isInMaintenanceWindow`: `date` falls inside some window `[start, end)`. -/
def isInMaintenanceWindow (date : Int) (windows : List MaintenanceWindow) : Bool :=
  match windows with
  | [] => false
  | w :: ws =>
    if w.startDate ≤ date ∧ date < w.endDate then true else isInMaintenanceWindow date ws

/-- `getMaintenanceWindowEnd`: the end of the first window containing `date`. -/
def getMaintenanceWindowEnd (date : Int) (windows : List MaintenanceWindow) : Option Int :=
  match windows with
  | [] => none
  | w :: ws =>
    if w.startDate ≤ date ∧ date < w.endDate then some w.endDate
    else getMaintenanceWindowEnd date ws

/-- Loop body of `getNextAvailableTime` (`maxIterations = 1000`); `orig` is
returned when the iteration cap is hit. -/
def getNextAvailableTimeAux (shifts : List Shift) (windows : List MaintenanceWindow)
    (orig : Int) : Nat → Int → Int
  | 0, _ => orig
  | fuel + 1, current =>
    let aligned := if shifts.length > 0 then getNextShiftStart current shifts else current
    match getMaintenanceWindowEnd aligned windows with
    | some maintenanceEnd => getNextAvailableTimeAux shifts windows orig fuel maintenanceEnd
    | none => aligned

/-- `getNextAvailableTime`: next instant available under both shifts and
maintenance windows. -/
def getNextAvailableTime (date : Int) (shifts : List Shift)
    (windows : List MaintenanceWindow) : Int :=
  getNextAvailableTimeAux shifts windows date 1000 date

/-- `getAvailableMinutes`: working minutes from `date` until shift end or the
next upcoming maintenance window; `none` plays the role of `Infinity` and is
defaulted to 1440 at the end, exactly as in the source. -/
def getAvailableMinutes (date : Int) (shifts : List Shift)
    (windows : List MaintenanceWindow) : Int :=
  let start : Option Int :=
    if shifts.length > 0 then some (getRemainingShiftMinutes date shifts) else none
  let folded : Option Int := windows.foldl
    (fun available w =>
      if date < w.startDate then
        match available with
        | none => some (w.startDate - date)
        | some a => some (min a (w.startDate - date))
      else available)
    start
  match folded with
  | none => 1440
  | some a => a

/-- Loop body of `calculateEndDateWithShiftsAndMaintenance`
(`maxIterations = 10000`, loop guard `remaining > 0`). -/
def calcEndLoop (shifts : List Shift) (windows : List MaintenanceWindow) :
    Nat → Int → Int → Int
  | 0, current, _ => current
  | fuel + 1, current, remaining =>
    if remaining ≤ 0 then current
    else
      let availableMinutes := getAvailableMinutes current shifts windows
      if availableMinutes ≤ 0 then
        calcEndLoop shifts windows fuel
          (getNextAvailableTime (current + 1) shifts windows) remaining
      else if remaining ≤ availableMinutes then
        current + remaining
      else
        calcEndLoop shifts windows fuel
          (getNextAvailableTime (current + availableMinutes) shifts windows)
          (remaining - availableMinutes)

/-- `calculateEndDateWithShiftsAndMaintenance`: end instant after consuming
`workingMinutes` of working time starting at `startDate`, honoring shifts and
maintenance windows. -/
def calculateEndDateWithShiftsAndMaintenance (startDate : Int) (workingMinutes : Int)
    (shifts : List Shift) (windows : List MaintenanceWindow) : Int :=
  if workingMinutes ≤ 0 then startDate
  else if shifts.length = 0 ∧ windows.length = 0 then calculateEndDate startDate workingMinutes
  else
    calcEndLoop shifts windows 10000
      (getNextAvailableTime startDate shifts windows) workingMinutes

/-! ### Data model, continued (`src/reflow/types.ts`) -/

/-- Data payload of a work order. -/
structure WorkOrderData where
  workOrderNumber : String
  manufacturingOrderId : String
  workCenterId : String
  startDate : Int
  endDate : Int
  durationMinutes : Int
  setupTimeMinutes : Option Int := none
  priority : Option Int := none
  isMaintenance : Bool
  dependsOnWorkOrderIds : List String
  deriving DecidableEq

/-- A work order document (the constant `docType` discriminator is omitted). -/
structure WorkOrder where
  docId : String
  data : WorkOrderData
  deriving DecidableEq

/-- Data payload of a work center. -/
structure WorkCenterData where
  name : String
  shifts : List Shift
  maintenanceWindows : List MaintenanceWindow
  deriving DecidableEq

/-- A work center document. -/
structure WorkCenter where
  docId : String
  data : WorkCenterData
  deriving DecidableEq

/-- Data payload of a manufacturing order (informational only; the engine
never reads it). -/
structure ManufacturingOrderData where
  manufacturingOrderNumber : String
  itemId : String
  quantity : Int
  dueDate : Int
  deriving DecidableEq

/-- A manufacturing order document. -/
structure ManufacturingOrder where
  docId : String
  data : ManufacturingOrderData
  deriving DecidableEq

/-- Reflow input snapshot. -/
structure ReflowInput where
  workOrders : List WorkOrder
  workCenters : List WorkCenter
  manufacturingOrders : List ManufacturingOrder
  deriving DecidableEq

/-- Per-order delta record. -/
structure ReflowChange where
  workOrderId : String
  workOrderNumber : String
  originalStartDate : Int
  originalEndDate : Int
  newStartDate : Int
  newEndDate : Int
  delayMinutes : Int
  reason : String
  deriving DecidableEq

/-! ### JavaScript `Map` as an insertion-ordered association list -/

/-- `Map.get`: the value stored at `k`, if any. -/
def assocGet (m : List (String × α)) (k : String) : Option α :=
  match m with
  | [] => none
  | (k2, v) :: rest => if k2 = k then some v else assocGet rest k

/-- `Map.set`: replace in place if the key is present (JS `Map` keeps the
original insertion position), append otherwise. -/
def assocSet (k : String) (v : α) (m : List (String × α)) : List (String × α) :=
  match m with
  | [] => [(k, v)]
  | (k2, v2) :: rest => if k2 = k then (k2, v) :: rest else (k2, v2) :: assocSet k v rest

/-- In-place update of the value stored at `k` (mutation of the object held
in a JS `Map`); a no-op when the key is absent. -/
def assocUpdate (k : String) (f : α → α) (m : List (String × α)) : List (String × α) :=
  match m with
  | [] => []
  | (k2, v) :: rest => if k2 = k then (k2, f v) :: rest else (k2, v) :: assocUpdate k f rest

/-- Half-open interval overlap test shared by the engine and the checker:
`start1 < end2 && end1 > start2`. -/
def overlaps (start1 end1 start2 end2 : Int) : Bool :=
  decide (start1 < end2) && decide (end1 > start2)

/-- The engine's and checker's work-center lookup table. -/
def buildWorkCenterMap (workCenters : List WorkCenter) : List (String × WorkCenter) :=
  workCenters.foldl (fun m wc => assocSet wc.docId wc m) []

/-! ### Constraint checker (`src/reflow/constraint-checker.ts`) -/

namespace ConstraintChecker

/-- Violation categories. -/
inductive ViolationType where
  | dependency
  | work_center_conflict
  | shift
  | maintenance
  deriving DecidableEq

/-- A reported constraint violation. -/
structure ConstraintViolation where
  workOrderId : String
  workOrderNumber : String
  type : ViolationType
  message : String
  deriving DecidableEq

/-- Result of `validate`. -/
structure ValidationResult where
  valid : Bool
  violations : List ConstraintViolation
  deriving DecidableEq

/-- Work-order lookup table used by the dependency check. -/
def buildWorkOrderMap (workOrders : List WorkOrder) : List (String × WorkOrder) :=
  workOrders.foldl (fun m wo => assocSet wo.docId wo m) []

/-- Dependency violations contributed by one work order. -/
def dependencyViolationsFor (workOrderMap : List (String × WorkOrder))
    (wo : WorkOrder) : List ConstraintViolation :=
  if wo.data.isMaintenance then []
  else
    wo.data.dependsOnWorkOrderIds.flatMap fun depId =>
      match assocGet workOrderMap depId with
      | some dep =>
        if wo.data.startDate < dep.data.endDate then
          [⟨wo.docId, wo.data.workOrderNumber, ViolationType.dependency,
            "Starts before dependency " ++ dep.data.workOrderNumber ++ " completes"⟩]
        else []
      | none => []

/-- `checkDependencies`: every non-maintenance order must start at or after
each existing dependency's end. -/
def checkDependencies (workOrders : List WorkOrder) : List ConstraintViolation :=
  workOrders.flatMap (dependencyViolationsFor (buildWorkOrderMap workOrders))

/-- Orders grouped by work-center id, keys in first-occurrence order. -/
def groupByWorkCenter (workOrders : List WorkOrder) : List (String × List WorkOrder) :=
  workOrders.foldl
    (fun m wo =>
      let orders := (assocGet m wo.data.workCenterId).getD []
      assocSet wo.data.workCenterId (orders ++ [wo]) m)
    []

/-- The `i < j` double loop over one work-center group. -/
def pairViolations : List WorkOrder → List ConstraintViolation
  | [] => []
  | wo1 :: rest =>
    (rest.flatMap fun wo2 =>
      if overlaps wo1.data.startDate wo1.data.endDate wo2.data.startDate wo2.data.endDate then
        [⟨wo2.docId, wo2.data.workOrderNumber, ViolationType.work_center_conflict,
          "Overlaps with " ++ wo1.data.workOrderNumber ++ " on same work center"⟩]
      else []) ++ pairViolations rest

/-- `checkWorkCenterConflicts`: no overlapping orders on the same work center. -/
def checkWorkCenterConflicts (workOrders : List WorkOrder) : List ConstraintViolation :=
  (groupByWorkCenter workOrders).flatMap fun g => pairViolations g.2

/-- `isWithinOrAtShiftEnd`: inside a shift, or exactly at that day's shift
end (hour equal to `endHour`, minute 0). -/
def isWithinOrAtShiftEnd (date : Int) (shifts : List Shift) : Bool :=
  if isWithinShift date shifts then true
  else
    match shifts.find? (fun s => s.dayOfWeek == dayOfWeek date) with
    | some shift => decide (hourOfDay date = shift.endHour) && decide (minuteOfHour date = 0)
    | none => false

/-- Shift violations contributed by one work order. -/
def shiftViolationsFor (workCenterMap : List (String × WorkCenter))
    (wo : WorkOrder) : List ConstraintViolation :=
  if wo.data.isMaintenance then []
  else
    match assocGet workCenterMap wo.data.workCenterId with
    | none => []
    | some workCenter =>
      if workCenter.data.shifts.length = 0 then []
      else
        (if !isWithinShift wo.data.startDate workCenter.data.shifts then
          [⟨wo.docId, wo.data.workOrderNumber, ViolationType.shift,
            "Starts outside shift hours"⟩]
         else []) ++
        (if !isWithinOrAtShiftEnd wo.data.endDate workCenter.data.shifts then
          [⟨wo.docId, wo.data.workOrderNumber, ViolationType.shift,
            "Ends outside shift hours"⟩]
         else [])

/-- `checkShifts`: work orders must lie within shift hours. -/
def checkShifts (workOrders : List WorkOrder) (workCenters : List WorkCenter) :
    List ConstraintViolation :=
  workOrders.flatMap (shiftViolationsFor (buildWorkCenterMap workCenters))

/-- Maintenance-window violations contributed by one work order. -/
def maintenanceViolationsFor (workCenterMap : List (String × WorkCenter))
    (wo : WorkOrder) : List ConstraintViolation :=
  if wo.data.isMaintenance then []
  else
    match assocGet workCenterMap wo.data.workCenterId with
    | none => []
    | some workCenter =>
      if workCenter.data.maintenanceWindows.length = 0 then []
      else
        workCenter.data.maintenanceWindows.flatMap fun w =>
          if overlaps wo.data.startDate wo.data.endDate w.startDate w.endDate then
            [⟨wo.docId, wo.data.workOrderNumber, ViolationType.maintenance,
              "Overlaps with maintenance window (" ++ toString w.startDate ++ " - "
                ++ toString w.endDate ++ ")"⟩]
          else []

/-- `checkMaintenanceWindows`: no order may overlap a maintenance window on
its work center. -/
def checkMaintenanceWindows (workOrders : List WorkOrder)
    (workCenters : List WorkCenter) : List ConstraintViolation :=
  workOrders.flatMap (maintenanceViolationsFor (buildWorkCenterMap workCenters))

/-- `validate`: union of the four checks; `valid` iff no violations. -/
def validate (input : ReflowInput) : ValidationResult :=
  let violations :=
    checkDependencies input.workOrders ++
    checkWorkCenterConflicts input.workOrders ++
    checkShifts input.workOrders input.workCenters ++
    checkMaintenanceWindows input.workOrders input.workCenters
  ⟨decide (violations.length = 0), violations⟩

end ConstraintChecker

/-! ### Claim C9: shift-membership check of the constraint checker -/

/-- Spec-side formulation: a shift window is defined for the instant's
weekday and the instant's hour of day falls within `[startHour, endHour)`. -/
def WithinShiftSpec (t : Int) (shifts : List Shift) : Prop :=
  ∃ s, getShiftForDay (dayOfWeek t) shifts = some s ∧
    s.startHour ≤ hourOfDay t ∧ hourOfDay t < s.endHour

/-- Spec-side formulation: the instant lies exactly at that day's shift end
boundary. -/
def AtShiftEndSpec (t : Int) (shifts : List Shift) : Prop :=
  ∃ s, getShiftForDay (dayOfWeek t) shifts = some s ∧
    hourOfDay t = s.endHour ∧ minuteOfHour t = 0

/-! ### Dependency graph (`src/reflow/dependency-graph.ts`) -/

/-- A node of the dependency graph. -/
structure DependencyNode where
  workOrderId : String
  dependsOn : List String
  dependents : List String
  deriving DecidableEq

/-- Result of the topological sort. -/
structure TopologicalSortResult where
  sorted : List String
  hasCycle : Bool
  cycleNodes : Option (List String) := none
  deriving DecidableEq

namespace DependencyGraph

/-- `build`, first loop: one node per order id (`Map.set` semantics, so a
duplicated id replaces the earlier node). -/
def buildNodes (workOrders : List WorkOrder) : List (String × DependencyNode) :=
  workOrders.foldl
    (fun m wo => assocSet wo.docId ⟨wo.docId, wo.data.dependsOnWorkOrderIds, []⟩ m) []

/-- `build`, second loop: reverse (dependents) edges; unknown predecessor
ids are dropped silently. -/
def build (workOrders : List WorkOrder) : List (String × DependencyNode) :=
  workOrders.foldl
    (fun m wo =>
      wo.data.dependsOnWorkOrderIds.foldl
        (fun m2 depId =>
          if (assocGet m2 depId).isSome then
            assocUpdate depId
              (fun n => { n with dependents := n.dependents ++ [wo.docId] }) m2
          else m2)
        m)
    (buildNodes workOrders)

/-- `getDependencies`. -/
def getDependencies (nodes : List (String × DependencyNode)) (workOrderId : String) :
    List String :=
  match assocGet nodes workOrderId with
  | some node => node.dependsOn
  | none => []

/-- `getDependents`. -/
def getDependents (nodes : List (String × DependencyNode)) (workOrderId : String) :
    List String :=
  match assocGet nodes workOrderId with
  | some node => node.dependents
  | none => []

/-- State of Kahn's algorithm: in-degrees, FIFO ready queue, output. -/
structure KahnState where
  inDeg : List (String × Int)
  queue : List String
  sorted : List String
  deriving DecidableEq

/-- One decrement of the inner `for (const dependent of node.dependents)`
loop; enqueue on reaching in-degree zero.  The source reads the entry with a
non-null assertion; dependents always lie among the node keys, so the
`getD 0` default is unreachable. -/
def kahnStep (st : KahnState) (dependent : String) : KahnState :=
  let newDegree := ((assocGet st.inDeg dependent).getD 0) - 1
  { st with
    inDeg := assocSet dependent newDegree st.inDeg
    queue := if newDegree = 0 then st.queue ++ [dependent] else st.queue }

/-- The `while (queue.length > 0)` loop.  The source loop is uncapped; each
iteration moves one id from the queue to `sorted` and ids are enqueued at
most once, so `nodes.length + 1` fuel is sufficient (proved below). -/
def kahnLoop (nodes : List (String × DependencyNode)) : Nat → KahnState → KahnState
  | 0, st => st
  | fuel + 1, st =>
    match st.queue with
    | [] => st
    | current :: rest =>
      let node := (assocGet nodes current).getD ⟨current, [], []⟩
      let st2 := node.dependents.foldl kahnStep
        { st with queue := rest, sorted := st.sorted ++ [current] }
      kahnLoop nodes fuel st2

/-- In-degree table built by the first loop of `topologicalSort`, counting
only edges to known nodes. -/
def initInDeg (nodes : List (String × DependencyNode)) : List (String × Int) :=
  nodes.map fun p =>
    (p.1, ((p.2.dependsOn.filter (fun dep => (assocGet nodes dep).isSome)).length : Int))

/-- Initial ready queue: ids whose in-degree is zero, in table order. -/
def initQueue (nodes : List (String × DependencyNode)) : List String :=
  ((initInDeg nodes).filter (fun p => decide (p.2 = 0))).map Prod.fst

/-- `topologicalSort`: Kahn's algorithm; on failure the entire unresolved
remainder is reported as the (non-minimal) cycle membership. -/
def topologicalSort (nodes : List (String × DependencyNode)) : TopologicalSortResult :=
  let finalSt := kahnLoop nodes (nodes.length + 1) ⟨initInDeg nodes, initQueue nodes, []⟩
  if finalSt.sorted.length ≠ nodes.length then
    let cycleNodes := (nodes.map Prod.fst).filter (fun id => decide (id ∉ finalSt.sorted))
    ⟨[], true, some cycleNodes⟩
  else
    ⟨finalSt.sorted, false, none⟩

/-- The value of an in-degree counter (`getD 0` for the never-taken default
of the source's non-null assertion). -/
def degOf (inDeg : List (String × Int)) (id : String) : Int :=
  (assocGet inDeg id).getD 0

/-- Dependency edge read off the built graph: `b` is a declared dependency
of node `a` and is itself a known node. -/
def nodeStep (nodes : List (String × DependencyNode)) (a b : String) : Prop :=
  ∃ node, assocGet nodes a = some node ∧ b ∈ node.dependsOn ∧
    (assocGet nodes b).isSome = true

/-- Number of known dependencies of `node` not yet in `sorted`; the value
every in-degree counter is proved to hold. -/
def unsortedDepCount (nodes : List (String × DependencyNode)) (sorted : List String)
    (node : DependencyNode) : Int :=
  ((node.dependsOn.filter
      (fun d => (assocGet nodes d).isSome && decide (d ∉ sorted))).length : Int)

/-- Explicit form of the dependents list accumulated by `build` for key `k`. -/
def dependentsOf (workOrders : List WorkOrder) (k : String) : List String :=
  workOrders.flatMap fun wo =>
    List.replicate (wo.data.dependsOnWorkOrderIds.count k) wo.docId

/-- Invariant of Kahn's algorithm: exact counter values, no duplicates among
output and queue, output and queue are known ids whose known dependencies
are already sorted, ids with counter zero have been enqueued, and no id
lying on a dependency cycle is ever enqueued or sorted. -/
def KahnInv (nodes : List (String × DependencyNode)) (st : KahnState) : Prop :=
  (∀ id node, assocGet nodes id = some node →
     degOf st.inDeg id = unsortedDepCount nodes st.sorted node) ∧
  (st.sorted ++ st.queue).Nodup ∧
  (∀ id ∈ st.sorted ++ st.queue, (assocGet nodes id).isSome = true) ∧
  (∀ id ∈ st.sorted ++ st.queue, ∀ node, assocGet nodes id = some node →
     ∀ d ∈ node.dependsOn, (assocGet nodes d).isSome = true → d ∈ st.sorted) ∧
  (∀ id node, assocGet nodes id = some node → degOf st.inDeg id = 0 →
     id ∈ st.sorted ∨ id ∈ st.queue) ∧
  (∀ a, Relation.TransGen (nodeStep nodes) a a → a ∉ st.sorted ∧ a ∉ st.queue)

end DependencyGraph

/-! ### Reflow service (`src/reflow/reflow.service.ts`) -/

/-- An occupied interval on a work center (the source field `end` is a
reserved word in Lean and is rendered `endTime`). -/
structure ScheduledSlot where
  workOrderId : String
  start : Int
  endTime : Int
  deriving DecidableEq

/-- Aggregate schedule metrics.  JavaScript floating-point numbers are
modelled as exact rationals. -/
structure ScheduleMetrics where
  totalDelayMinutes : Int
  averageDelayMinutes : Int
  maxDelayMinutes : Int
  workOrdersRescheduled : Int
  workOrdersUnchanged : Int
  utilizationByWorkCenter : List (String × ℚ)
  deriving DecidableEq

/-- Result of `reflow`. -/
structure ReflowResult where
  updatedWorkOrders : List WorkOrder
  changes : List ReflowChange
  explanation : String
  metrics : ScheduleMetrics
  deriving DecidableEq

namespace ReflowService

/-- `cloneWorkOrder` rebuilds the record field by field. -/
def cloneWorkOrder (wo : WorkOrder) : WorkOrder := ⟨wo.docId, wo.data⟩

/-- `emptyMetrics`. -/
def emptyMetrics : ScheduleMetrics := ⟨0, 0, 0, 0, 0, []⟩

/-- `calculateDelayMinutes`: `Math.round` of an exact whole-minute
difference is the difference itself. -/
def calculateDelayMinutes (originalEnd newEnd : Int) : Int := newEnd - originalEnd

/-- `buildExplanation`. -/
def buildExplanation (changes : List ReflowChange) : String :=
  if changes.length = 0 then "No changes required."
  else "Rescheduled " ++ toString changes.length ++ " work order(s)."

/-- `Array.prototype.join(' -> ')`. -/
def joinArrow : List String → String
  | [] => ""
  | [x] => x
  | x :: xs => x ++ " -> " ++ joinArrow xs

/-- Effective priority (`wo.data.priority ?? 3`). -/
def priorityOf (wo : WorkOrder) : Int := wo.data.priority.getD 3

/-- The total preorder decided by the comparator of `sortByPriority`:
ascending priority, ties broken by ascending original start instant. -/
def priorityLE (a b : WorkOrder) : Prop :=
  priorityOf a < priorityOf b ∨
    (priorityOf a = priorityOf b ∧ a.data.startDate ≤ b.data.startDate)

instance : DecidableRel priorityLE := fun a b => by
  unfold priorityLE; infer_instance

/-- `sortByPriority`: drop maintenance orders and stably sort by the
comparator.  `Array.prototype.sort` is stable, and a stable sort is
determined by its comparator, so the stable `insertionSort` models it. -/
def sortByPriority (workOrders : List WorkOrder) : List WorkOrder :=
  List.insertionSort priorityLE (workOrders.filter (fun wo => !wo.data.isMaintenance))

/-- Mutable scheduling state of one `reflow` call. -/
structure ReflowState where
  workCenterSlots : List (String × List ScheduledSlot)
  updatedMap : List (String × WorkOrder)
  changes : List ReflowChange
  deriving DecidableEq

/-- `addSlot`. -/
def addSlot (slots : List (String × List ScheduledSlot)) (workCenterId : String)
    (slot : ScheduledSlot) : List (String × List ScheduledSlot) :=
  assocSet workCenterId ((assocGet slots workCenterId).getD [] ++ [slot]) slots

/-- `scheduleMaintenanceOrders`: maintenance orders are cloned verbatim and
their original intervals occupy their work centers. -/
def scheduleMaintenanceOrders (workOrders : List WorkOrder) (st : ReflowState) :
    ReflowState :=
  workOrders.foldl
    (fun st wo =>
      if wo.data.isMaintenance then
        { st with
          updatedMap := assocSet wo.docId (cloneWorkOrder wo) st.updatedMap
          workCenterSlots := addSlot st.workCenterSlots wo.data.workCenterId
            ⟨wo.docId, wo.data.startDate, wo.data.endDate⟩ }
      else st)
    st

/-- `findEarliestStart`: the later of the original start and every already
placed dependency's updated end, aligned to the next available time. -/
def findEarliestStart (nodes : List (String × DependencyNode)) (wo : WorkOrder)
    (updatedMap : List (String × WorkOrder)) (shifts : List Shift)
    (windows : List MaintenanceWindow) : Int :=
  let earliest := (DependencyGraph.getDependencies nodes wo.docId).foldl
    (fun earliest depId =>
      match assocGet updatedMap depId with
      | some depWo => if depWo.data.endDate > earliest then depWo.data.endDate else earliest
      | none => earliest)
    wo.data.startDate
  getNextAvailableTime earliest shifts windows

/-- The `while (hasConflict)` push-forward loop of `findAvailableSlot`.  The
source loop is uncapped; every push strictly advances the proposed start
past a conflicting slot's end, so `slots.length + 1` fuel is sufficient
(proved below), making the fuel-exhaustion branch unreachable. -/
def findSlotLoop (shifts : List Shift) (windows : List MaintenanceWindow)
    (slots : List ScheduledSlot) (totalMinutes : Int) : Nat → Int → Int × Int
  | 0, proposedStart =>
    (proposedStart,
      calculateEndDateWithShiftsAndMaintenance proposedStart totalMinutes shifts windows)
  | fuel + 1, proposedStart =>
    let proposedEnd :=
      calculateEndDateWithShiftsAndMaintenance proposedStart totalMinutes shifts windows
    match slots.find? (fun slot => overlaps proposedStart proposedEnd slot.start slot.endTime) with
    | none => (proposedStart, proposedEnd)
    | some slot =>
      findSlotLoop shifts windows slots totalMinutes fuel
        (getNextAvailableTime slot.endTime shifts windows)

/-- `findAvailableSlot`. -/
def findAvailableSlot (start : Int) (totalMinutes : Int) (slots : List ScheduledSlot)
    (shifts : List Shift) (windows : List MaintenanceWindow) : Int × Int :=
  findSlotLoop shifts windows slots totalMinutes (slots.length + 1) start

/-- `recordChange`: push a change record unless both dates are unchanged. -/
def recordChange (nodes : List (String × DependencyNode)) (original updated : WorkOrder)
    (newStart : Int) (updatedMap : List (String × WorkOrder))
    (changes : List ReflowChange) : List ReflowChange :=
  if original.data.startDate = updated.data.startDate ∧
      original.data.endDate = updated.data.endDate then changes
  else
    let delayMinutes := calculateDelayMinutes original.data.endDate updated.data.endDate
    let reason :=
      if newStart > original.data.startDate then
        if (DependencyGraph.getDependencies nodes original.docId).any (fun depId =>
            match assocGet updatedMap depId with
            | some depWo => decide (depWo.data.endDate > original.data.startDate)
            | none => false) then
          "Pushed forward due to dependency completion"
        else
          "Pushed forward due to work center conflict"
      else "Recalculated end date based on duration"
    changes ++ [⟨original.docId, original.data.workOrderNumber, original.data.startDate,
      original.data.endDate, updated.data.startDate, updated.data.endDate, delayMinutes,
      reason⟩]

/-- `scheduleWorkOrder`: place one order and record its slot and change. -/
def scheduleWorkOrder (nodes : List (String × DependencyNode))
    (workCenterMap : List (String × WorkCenter)) (st : ReflowState) (wo : WorkOrder) :
    ReflowState :=
  let workCenter := assocGet workCenterMap wo.data.workCenterId
  let shifts := (workCenter.map (fun wc => wc.data.shifts)).getD []
  let windows := (workCenter.map (fun wc => wc.data.maintenanceWindows)).getD []
  let earliestStart := findEarliestStart nodes wo st.updatedMap shifts windows
  let totalMinutes := wo.data.durationMinutes + wo.data.setupTimeMinutes.getD 0
  let slots := (assocGet st.workCenterSlots wo.data.workCenterId).getD []
  let se := findAvailableSlot earliestStart totalMinutes slots shifts windows
  let updated : WorkOrder := ⟨wo.docId, { wo.data with startDate := se.1, endDate := se.2 }⟩
  let updatedMap2 := assocSet wo.docId updated st.updatedMap
  let slots2 := addSlot st.workCenterSlots wo.data.workCenterId ⟨wo.docId, se.1, se.2⟩
  let changes2 := recordChange nodes wo updated se.1 updatedMap2 st.changes
  ⟨slots2, updatedMap2, changes2⟩

/-- `Math.max(...delays)` over a non-empty list. -/
def listMax : List Int → Int
  | [] => 0
  | d :: ds => ds.foldl max d

/-- `calculateMetrics`. -/
def calculateMetrics (originalWorkOrders updatedWorkOrders : List WorkOrder)
    (changes : List ReflowChange) (workCenters : List WorkCenter)
    (workCenterSlots : List (String × List ScheduledSlot)) : ScheduleMetrics :=
  let delays := (changes.map (fun c => c.delayMinutes)).filter (fun d => decide (d > 0))
  let totalDelayMinutes : Int := delays.foldl (· + ·) 0
  let averageDelayMinutes : ℚ :=
    if delays.length > 0 then (totalDelayMinutes : ℚ) / (delays.length : ℚ) else 0
  let maxDelayMinutes := if delays.length > 0 then listMax delays else 0
  let workOrdersRescheduled : Int := changes.length
  let workOrdersUnchanged : Int :=
    ((originalWorkOrders.filter (fun wo => !wo.data.isMaintenance)).length : Int)
      - workOrdersRescheduled
  let utilizationByWorkCenter := workCenters.foldl
    (fun m wc =>
      let slots := (assocGet workCenterSlots wc.docId).getD []
      if slots.length = 0 then assocSet wc.docId (0 : ℚ) m
      else
        let totalWorkingMinutes : Int := slots.foldl
          (fun acc slot =>
            match updatedWorkOrders.find? (fun w => w.docId == slot.workOrderId) with
            | some w =>
              if !w.data.isMaintenance then
                acc + w.data.durationMinutes + w.data.setupTimeMinutes.getD 0
              else acc
            | none => acc)
          0
        let shiftsPerWeek : Int := wc.data.shifts.length
        let hoursPerShift : Int :=
          match wc.data.shifts with
          | [] => 0
          | s :: _ => s.endHour - s.startHour
        let availableMinutesPerWeek := shiftsPerWeek * hoursPerShift * 60
        let utilization : ℚ :=
          if availableMinutesPerWeek > 0 then
            (totalWorkingMinutes : ℚ) / (availableMinutesPerWeek : ℚ)
          else 0
        assocSet wc.docId (((round (utilization * 100) : ℤ) : ℚ) / 100) m)
    []
  { totalDelayMinutes
    averageDelayMinutes := round averageDelayMinutes
    maxDelayMinutes
    workOrdersRescheduled
    workOrdersUnchanged
    utilizationByWorkCenter }

/-- `reflow`: the complete pass.  The source reads completed entries with a
non-null assertion (`updatedMap.get(wo.docId)!`); every order id is proved
present, so the `getD wo` default is unreachable. -/
def reflow (input : ReflowInput) : ReflowResult :=
  let nodes := DependencyGraph.build input.workOrders
  let sortResult := DependencyGraph.topologicalSort nodes
  if sortResult.hasCycle then
    { updatedWorkOrders := input.workOrders.map cloneWorkOrder
      changes := []
      explanation := "Cycle detected in dependencies: "
        ++ joinArrow (sortResult.cycleNodes.getD [])
      metrics := emptyMetrics }
  else
    let sortedOrders := sortByPriority input.workOrders
    let workCenterMap := buildWorkCenterMap input.workCenters
    let st1 := scheduleMaintenanceOrders input.workOrders ⟨[], [], []⟩
    let st2 := sortedOrders.foldl (scheduleWorkOrder nodes workCenterMap) st1
    let updatedWorkOrders :=
      input.workOrders.map (fun wo => (assocGet st2.updatedMap wo.docId).getD wo)
    { updatedWorkOrders
      changes := st2.changes
      explanation := buildExplanation st2.changes
      metrics := calculateMetrics input.workOrders updatedWorkOrders st2.changes
        input.workCenters st2.workCenterSlots }

end ReflowService

/-! ### Acyclicity of the dependency references -/

/-- Dependency edge restricted to known order ids: some order of the input
has id `a` and declares `b` as a predecessor, and `b` itself is the id of an
order of the input. -/
def depStep (workOrders : List WorkOrder) (a b : String) : Prop :=
  (∃ wo ∈ workOrders, wo.docId = a ∧ b ∈ wo.data.dependsOnWorkOrderIds) ∧
    ∃ wo ∈ workOrders, wo.docId = b

instance (workOrders : List WorkOrder) : DecidableRel (depStep workOrders) := fun a b => by
  unfold depStep; infer_instance

/-- The dependency references of the input, restricted to known order ids,
contain a cycle: some id has a non-empty dependency path back to itself. -/
def HasDepCycle (workOrders : List WorkOrder) : Prop :=
  ∃ a, Relation.TransGen (depStep workOrders) a a

/-! ### Claim C1, counterexample -/

/-- High-priority order depending on a low-priority one: `exA` is processed
first, before its dependency `exB` has been placed, so the dependency is
ignored by `findEarliestStart`. -/
def exA : WorkOrder := ⟨"A", ⟨"WO-A", "M", "W", 100, 110, 10, none, some 1, false, ["B"]⟩⟩

/-- The dependency of `exA`: low priority, long duration. -/
def exB : WorkOrder := ⟨"B", ⟨"WO-B", "M", "W", 0, 200, 200, none, some 5, false, []⟩⟩

/-- Acyclic two-order input; no work centers, hence unconstrained calendars. -/
def exC1 : ReflowInput := ⟨[exA, exB], [], []⟩

/-! ### Claim C2, counterexample -/

/-- First fixed maintenance block on work center `"W"`. -/
def exM1 : WorkOrder := ⟨"M1", ⟨"WO-M1", "M", "W", 0, 100, 100, none, none, true, []⟩⟩

/-- Second maintenance block, overlapping the first on the same work center. -/
def exM2 : WorkOrder := ⟨"M2", ⟨"WO-M2", "M", "W", 50, 150, 100, none, none, true, []⟩⟩

/-- Acyclic input of two overlapping maintenance orders. -/
def exC2 : ReflowInput := ⟨[exM1, exM2], [], []⟩

/-- High-priority dependency scheduled first: used to witness the amended
dependency-ordering claim. -/
def exDB : WorkOrder := ⟨"DB", ⟨"WO-DB", "M", "W", 0, 200, 200, none, some 1, false, []⟩⟩

/-- Low-priority order depending on `exDB`, hence placed after it. -/
def exDA : WorkOrder :=
  ⟨"DA", ⟨"WO-DA", "M", "W", 100, 110, 10, none, some 5, false, ["DB"]⟩⟩

/-- Acyclic input whose dependency is processed before its dependent. -/
def exD : ReflowInput := ⟨[exDA, exDB], [], []⟩

/-! ### Concrete cyclic input used by witnesses -/

/-- First member of a two-cycle. -/
def exCycA : WorkOrder := ⟨"CA", ⟨"WO-CA", "M", "W", 0, 10, 10, none, none, false, ["CB"]⟩⟩

/-- Second member of a two-cycle. -/
def exCycB : WorkOrder := ⟨"CB", ⟨"WO-CB", "M", "W", 0, 10, 10, none, none, false, ["CA"]⟩⟩

/-- Input whose dependency references contain a cycle. -/
def exCyc : ReflowInput := ⟨[exCycA, exCycB], [], []⟩

/-! ### Verification predicates for the scheduling fold -/

/-- The ids of the maintenance orders of the input. -/
def maintenanceIds (workOrders : List WorkOrder) : List String :=
  (workOrders.filter (fun wo => wo.data.isMaintenance)).map WorkOrder.docId

/-- Compatibility of two occupied intervals recorded in this order on one
work center: a maintenance-owned slot is never recorded after an
engine-placed slot, and an engine-placed slot never overlaps an earlier
slot.  Only maintenance pairs may overlap (they are placed verbatim). -/
def slotCompat (maintIds : List String) (a b : ScheduledSlot) : Prop :=
  (b.workOrderId ∈ maintIds → a.workOrderId ∈ maintIds) ∧
  (b.workOrderId ∉ maintIds → overlaps a.start a.endTime b.start b.endTime = false)

/-- Every work-center slot list of the state is pairwise compatible. -/
def SlotsInv (maintIds : List String) (st : ReflowService.ReflowState) : Prop :=
  ∀ wc, ((assocGet st.workCenterSlots wc).getD []).Pairwise (slotCompat maintIds)

/-- The scheduling state at the end of `reflow`'s scheduling branch:
maintenance orders placed verbatim, then the priority-sorted orders folded
through `scheduleWorkOrder` (names the bindings `nodes`, `workCenterMap` and
the states threaded through `reflow`'s else branch). -/
def reflowState (input : ReflowInput) : ReflowService.ReflowState :=
  (ReflowService.sortByPriority input.workOrders).foldl
    (ReflowService.scheduleWorkOrder (DependencyGraph.build input.workOrders)
      (buildWorkCenterMap input.workCenters))
    (ReflowService.scheduleMaintenanceOrders input.workOrders ⟨[], [], []⟩)


/-! ## Theorems -/

/-! ### Basic facts about the time primitives -/

theorem dayStartOf_le (t : Int) : dayStartOf t ≤ t := by
  unfold dayStartOf dayNumber; omega

theorem lt_dayStartOf_add (t : Int) : t < dayStartOf t + 1440 := by
  unfold dayStartOf dayNumber; omega

theorem dayOfWeek_nonneg (t : Int) : 0 ≤ dayOfWeek t := by
  unfold dayOfWeek dayNumber; omega

theorem dayOfWeek_lt (t : Int) : dayOfWeek t < 7 := by
  unfold dayOfWeek dayNumber; omega

theorem dayNumber_next (t : Int) : dayNumber (dayStartOf t + 1440) = dayNumber t + 1 := by
  unfold dayStartOf dayNumber; omega

theorem dayOfWeek_next (t : Int) :
    dayOfWeek (dayStartOf t + 1440) = (dayOfWeek t + 1) % 7 := by
  unfold dayOfWeek
  rw [dayNumber_next]
  unfold dayNumber
  omega

/-! ### Claim C4: pure duration arithmetic -/

/-- C4.  With an empty shift list and an empty maintenance-window list,
`calculateEndDateWithShiftsAndMaintenance start D` equals `start + D` minutes
for every `D ≥ 0`, and for `D ≤ 0` it returns `start` unchanged under any
shift/maintenance configuration. -/
theorem calculateEnd_pure_duration :
    (∀ (startDate workingMinutes : Int) (shifts : List Shift)
       (windows : List MaintenanceWindow), workingMinutes ≤ 0 →
      calculateEndDateWithShiftsAndMaintenance startDate workingMinutes shifts windows
        = startDate) ∧
    (∀ startDate workingMinutes : Int, 0 ≤ workingMinutes →
      calculateEndDateWithShiftsAndMaintenance startDate workingMinutes [] []
        = startDate + workingMinutes) := by
  constructor
  · intro s m sh mw h
    unfold calculateEndDateWithShiftsAndMaintenance
    rw [if_pos h]
  · intro s m h
    by_cases h0 : m ≤ 0
    · have hm : m = 0 := le_antisymm h0 h
      subst hm
      unfold calculateEndDateWithShiftsAndMaintenance
      simp
    · unfold calculateEndDateWithShiftsAndMaintenance
      rw [if_neg h0, if_pos ⟨rfl, rfl⟩]
      rfl

/-- Witness for C4 at concrete inputs. -/
theorem calculateEnd_pure_duration_witness :
    calculateEndDateWithShiftsAndMaintenance 5 (-3)
        [⟨1, 8, 17⟩] [⟨0, 10, none⟩] = 5 ∧
    calculateEndDateWithShiftsAndMaintenance 5 7 [] [] = 5 + 7 :=
  ⟨calculateEnd_pure_duration.1 5 (-3) [⟨1, 8, 17⟩] [⟨0, 10, none⟩] (by decide),
   calculateEnd_pure_duration.2 5 7 (by decide)⟩

/-! ### Claim C7: the 14-day shift-alignment horizon -/

theorem getNextShiftStartAux_no_shift (shifts : List Shift) (orig : Int) :
    ∀ (fuel : Nat) (current : Int),
      (∀ i : Nat, i < fuel →
        getShiftForDay ((dayOfWeek current + (i : Int)) % 7) shifts = none) →
      getNextShiftStartAux shifts orig fuel current = orig := by
  intro fuel
  induction fuel with
  | zero => intro current _; rfl
  | succ n ih =>
    intro current hnone
    have h0 : getShiftForDay (dayOfWeek current) shifts = none := by
      have := hnone 0 (Nat.succ_pos n)
      have heq : (dayOfWeek current + ((0 : Nat) : Int)) % 7 = dayOfWeek current := by
        have h1 := dayOfWeek_nonneg current
        have h2 := dayOfWeek_lt current
        omega
      rwa [heq] at this
    unfold getNextShiftStartAux
    rw [h0]
    apply ih
    intro i hi
    have heq : dayOfWeek (dayStartOf current + 1440) + (i : Int)
        = dayOfWeek current + 1 + (i : Int) - 7 * ((dayOfWeek current + 1) / 7) := by
      rw [dayOfWeek_next]
      omega
    have hmod : (dayOfWeek (dayStartOf current + 1440) + (i : Int)) % 7
        = (dayOfWeek current + ((i + 1 : Nat) : Int)) % 7 := by
      rw [heq]
      push_cast
      omega
    rw [hmod]
    exact hnone (i + 1) (by omega)

/-- C7.  For every instant and every non-empty shift list, if no shift is
defined for any of the 14 consecutive calendar days scanned starting at the
instant's day, `getNextShiftStart` gives up and returns the original instant
unchanged. -/
theorem getNextShiftStart_gives_up (date : Int) (shifts : List Shift)
    (hne : shifts ≠ [])
    (hnone : ∀ i : Nat, i < 14 →
      getShiftForDay ((dayOfWeek date + (i : Int)) % 7) shifts = none) :
    getNextShiftStart date shifts = date := by
  unfold getNextShiftStart
  exact getNextShiftStartAux_no_shift shifts date 14 date hnone

/-- Witness for C7: a shift list whose only entry names the impossible
weekday 9 is never found on any scanned day. -/
theorem getNextShiftStart_gives_up_witness :
    getNextShiftStart 123 [⟨9, 8, 17⟩] = 123 :=
  getNextShiftStart_gives_up 123 [⟨9, 8, 17⟩] (by decide) (by decide)

/-! ### Claims C4 and C7 are stated above among the time lemmas; C9 follows. -/

theorem isWithinShift_iff (t : Int) (shifts : List Shift) :
    isWithinShift t shifts = true ↔ WithinShiftSpec t shifts := by
  unfold isWithinShift WithinShiftSpec
  cases h : getShiftForDay (dayOfWeek t) shifts with
  | none => simp
  | some s => simp

theorem isWithinOrAtShiftEnd_iff (t : Int) (shifts : List Shift) :
    ConstraintChecker.isWithinOrAtShiftEnd t shifts = true ↔
      WithinShiftSpec t shifts ∨ AtShiftEndSpec t shifts := by
  unfold ConstraintChecker.isWithinOrAtShiftEnd
  by_cases hw : isWithinShift t shifts = true
  · simp [hw, (isWithinShift_iff t shifts).mp hw]
  · rw [if_neg hw]
    have hfind : shifts.find? (fun s => s.dayOfWeek == dayOfWeek t)
        = getShiftForDay (dayOfWeek t) shifts := rfl
    rw [hfind]
    rw [isWithinShift_iff] at hw
    cases h : getShiftForDay (dayOfWeek t) shifts with
    | none =>
      simp only [WithinShiftSpec, AtShiftEndSpec, h]
      simp
    | some s =>
      simp only [AtShiftEndSpec, h]
      simp [hw]

/-- C9.  `ConstraintChecker.validate` reports a shift violation for a work
order iff the order is non-maintenance, its work center exists with a
non-empty shift list, and either its start is not within a shift window for
its weekday, or its end is neither within a shift window nor exactly at that
day's shift end boundary; `checkShifts` decomposes order by order; and the
`valid` flag is true iff the violation list of all four checks is empty. -/
theorem constraintChecker_shift_and_valid :
    (∀ (workCenters : List WorkCenter) (wo : WorkOrder),
      ConstraintChecker.shiftViolationsFor (buildWorkCenterMap workCenters) wo ≠ [] ↔
        (wo.data.isMaintenance = false ∧
         ∃ wc, assocGet (buildWorkCenterMap workCenters) wo.data.workCenterId = some wc ∧
           wc.data.shifts ≠ [] ∧
           (¬ WithinShiftSpec wo.data.startDate wc.data.shifts ∨
            ¬ (WithinShiftSpec wo.data.endDate wc.data.shifts ∨
               AtShiftEndSpec wo.data.endDate wc.data.shifts)))) ∧
    (∀ (workOrders : List WorkOrder) (workCenters : List WorkCenter),
      ConstraintChecker.checkShifts workOrders workCenters =
        workOrders.flatMap
          (ConstraintChecker.shiftViolationsFor (buildWorkCenterMap workCenters))) ∧
    (∀ input : ReflowInput,
      (ConstraintChecker.validate input).valid = true ↔
        (ConstraintChecker.validate input).violations = []) := by
  refine ⟨?_, fun _ _ => rfl, ?_⟩
  · intro workCenters wo
    unfold ConstraintChecker.shiftViolationsFor
    by_cases hm : wo.data.isMaintenance
    · simp [hm]
    · rw [if_neg hm]
      cases hget : assocGet (buildWorkCenterMap workCenters) wo.data.workCenterId with
      | none => simp [hm]
      | some wc =>
        dsimp only
        by_cases hlen : wc.data.shifts.length = 0
        · rw [if_pos hlen]
          rw [List.length_eq_zero] at hlen
          simp [hm, hlen]
        · rw [if_neg hlen]
          rw [List.length_eq_zero] at hlen
          have hmf : wo.data.isMaintenance = false := by
            revert hm; cases wo.data.isMaintenance <;> simp
          have hstart := isWithinShift_iff wo.data.startDate wc.data.shifts
          have hend := isWithinOrAtShiftEnd_iff wo.data.endDate wc.data.shifts
          cases hA : isWithinShift wo.data.startDate wc.data.shifts with
          | true =>
            have hW : WithinShiftSpec wo.data.startDate wc.data.shifts := hstart.mp hA
            cases hB : ConstraintChecker.isWithinOrAtShiftEnd wo.data.endDate
                wc.data.shifts with
            | true =>
              have hE := hend.mp hB
              simp only [hA, hB, hmf, hlen]
              simp
              tauto
            | false =>
              have hE : ¬ (WithinShiftSpec wo.data.endDate wc.data.shifts ∨
                  AtShiftEndSpec wo.data.endDate wc.data.shifts) := by
                intro hc
                rw [← hend, hB] at hc
                exact absurd hc (by simp)
              simp [hA, hB, hmf, hlen]
              tauto
          | false =>
            have hW : ¬ WithinShiftSpec wo.data.startDate wc.data.shifts := by
              intro hc
              rw [← hstart, hA] at hc
              exact absurd hc (by simp)
            cases hB : ConstraintChecker.isWithinOrAtShiftEnd wo.data.endDate
                wc.data.shifts with
            | true => simp [hA, hB, hmf, hlen, hW]
            | false => simp [hA, hB, hmf, hlen, hW]
  · intro input
    unfold ConstraintChecker.validate
    simp [List.length_eq_zero]

/-- A ranking that strictly decreases along known dependency edges refutes
every cycle; used to discharge acyclicity at concrete inputs. -/
theorem not_hasDepCycle_of_rank (workOrders : List WorkOrder) (rank : String → Nat)
    (hr : ∀ wo ∈ workOrders, ∀ depId ∈ wo.data.dependsOnWorkOrderIds,
      (∃ wo2 ∈ workOrders, wo2.docId = depId) → rank depId < rank wo.docId) :
    ¬ HasDepCycle workOrders := by
  rintro ⟨a, hcyc⟩
  have key : ∀ x y, Relation.TransGen (depStep workOrders) x y → rank y < rank x := by
    intro x y h
    induction h with
    | single h =>
      obtain ⟨⟨wo, hwo, hid, hdep⟩, hknown⟩ := h
      subst hid
      exact hr wo hwo _ hdep hknown
    | tail _ h2 ih =>
      obtain ⟨⟨wo, hwo, hid, hdep⟩, hknown⟩ := h2
      subst hid
      exact lt_trans (hr wo hwo _ hdep hknown) ih
  exact absurd (key a a hcyc) (lt_irrefl _)

/-- C1 counterexample: the input is acyclic, `"B"` is a dependency of `"A"`
present in the input, yet in the schedule returned by `reflow` the new start
of `"A"` (100) is strictly below the new end of `"B"` (310): the engine
processes orders in priority order and ignores dependencies that have not
been placed yet. -/
theorem reflow_dependency_ordering_counterexample :
    ¬ HasDepCycle exC1.workOrders ∧
    ∃ o ∈ exC1.workOrders, ∃ d ∈ exC1.workOrders,
      d.docId ∈ o.data.dependsOnWorkOrderIds ∧
      ∃ uo ∈ (ReflowService.reflow exC1).updatedWorkOrders,
        ∃ ud ∈ (ReflowService.reflow exC1).updatedWorkOrders,
          uo.docId = o.docId ∧ ud.docId = d.docId ∧
          uo.data.startDate < ud.data.endDate := by
  constructor
  · exact not_hasDepCycle_of_rank _ (fun id => if id = "B" then 0 else 1) (by decide)
  · decide

/-- C2 counterexample: maintenance orders are placed verbatim and never
checked against each other, so two overlapping maintenance orders on the
same work center yield overlapping output intervals in an acyclic input. -/
theorem reflow_exclusivity_counterexample :
    ¬ HasDepCycle exC2.workOrders ∧
    ∃ u1 ∈ (ReflowService.reflow exC2).updatedWorkOrders,
      ∃ u2 ∈ (ReflowService.reflow exC2).updatedWorkOrders,
        u1.docId ≠ u2.docId ∧
        u1.data.workCenterId = u2.data.workCenterId ∧
        u1.data.startDate < u2.data.endDate ∧ u1.data.endDate > u2.data.startDate := by
  constructor
  · exact not_hasDepCycle_of_rank _ (fun _ => 0) (by decide)
  · decide

/-! ### Association-list lemmas -/

theorem assocGet_set_self {α : Type} (k : String) (v : α) (m : List (String × α)) :
    assocGet (assocSet k v m) k = some v := by
  induction m with
  | nil => simp [assocSet, assocGet]
  | cons p rest ih =>
    obtain ⟨k2, v2⟩ := p
    by_cases h : k2 = k
    · subst h; simp [assocSet, assocGet]
    · simp [assocSet, assocGet, h, ih]

theorem assocGet_set_ne {α : Type} {k k2 : String} (v : α) (m : List (String × α))
    (h : k2 ≠ k) : assocGet (assocSet k v m) k2 = assocGet m k2 := by
  have hne : ¬ k = k2 := fun hh => h hh.symm
  induction m with
  | nil => simp [assocSet, assocGet, hne]
  | cons p rest ih =>
    obtain ⟨k3, v3⟩ := p
    by_cases h3 : k3 = k
    · simp [assocSet, assocGet, h3, hne]
    · simp [assocSet, assocGet, h3, ih]

theorem assocGet_update_self {α : Type} (f : α → α) (k : String) (m : List (String × α)) :
    assocGet (assocUpdate k f m) k = (assocGet m k).map f := by
  induction m with
  | nil => simp [assocUpdate, assocGet]
  | cons p rest ih =>
    obtain ⟨k2, v2⟩ := p
    by_cases h : k2 = k
    · subst h; simp [assocUpdate, assocGet]
    · simp [assocUpdate, assocGet, h, ih]

theorem assocGet_update_ne {α : Type} (f : α → α) {k k2 : String} (m : List (String × α))
    (h : k2 ≠ k) : assocGet (assocUpdate k f m) k2 = assocGet m k2 := by
  have hne : ¬ k = k2 := fun hh => h hh.symm
  induction m with
  | nil => simp [assocUpdate, assocGet]
  | cons p rest ih =>
    obtain ⟨k3, v3⟩ := p
    by_cases h3 : k3 = k
    · simp [assocUpdate, assocGet, h3, hne]
    · simp [assocUpdate, assocGet, h3, ih]

theorem assocUpdate_keys {α : Type} (f : α → α) (k : String) (m : List (String × α)) :
    (assocUpdate k f m).map Prod.fst = m.map Prod.fst := by
  induction m with
  | nil => simp [assocUpdate]
  | cons p rest ih =>
    obtain ⟨k2, v2⟩ := p
    by_cases h : k2 = k
    · subst h; simp [assocUpdate]
    · simp [assocUpdate, h, ih]

theorem assocSet_keys_of_mem {α : Type} {k : String} (v : α) {m : List (String × α)}
    (h : k ∈ m.map Prod.fst) : (assocSet k v m).map Prod.fst = m.map Prod.fst := by
  induction m with
  | nil => simp at h
  | cons p rest ih =>
    obtain ⟨k2, v2⟩ := p
    by_cases h2 : k2 = k
    · subst h2; simp [assocSet]
    · have hk : k ∈ rest.map Prod.fst := by
        simp only [List.map_cons, List.mem_cons] at h
        rcases h with h | h
        · exact absurd h.symm h2
        · exact h
      simp [assocSet, h2, ih hk]

theorem assocSet_of_not_mem {α : Type} {k : String} (v : α) {m : List (String × α)}
    (h : k ∉ m.map Prod.fst) : assocSet k v m = m ++ [(k, v)] := by
  induction m with
  | nil => simp [assocSet]
  | cons p rest ih =>
    obtain ⟨k2, v2⟩ := p
    simp only [List.map_cons, List.mem_cons] at h
    push_neg at h
    have hne : ¬ k2 = k := fun hh => h.1 hh.symm
    simp [assocSet, hne, ih h.2]

theorem assocGet_isSome_iff {α : Type} (m : List (String × α)) (k : String) :
    (assocGet m k).isSome = true ↔ k ∈ m.map Prod.fst := by
  induction m with
  | nil => simp [assocGet]
  | cons p rest ih =>
    obtain ⟨k2, v2⟩ := p
    by_cases h : k2 = k
    · subst h; simp [assocGet]
    · have hne : ¬ k = k2 := fun hh => h hh.symm
      simp only [assocGet, if_neg h, List.map_cons, List.mem_cons]
      rw [ih]
      simp [hne]

theorem assocGet_eq_none_iff {α : Type} (m : List (String × α)) (k : String) :
    assocGet m k = none ↔ k ∉ m.map Prod.fst := by
  rw [← assocGet_isSome_iff]
  cases assocGet m k <;> simp

theorem assocGet_mem {α : Type} {m : List (String × α)} {k : String} {v : α}
    (h : assocGet m k = some v) : (k, v) ∈ m := by
  induction m with
  | nil => simp [assocGet] at h
  | cons p rest ih =>
    obtain ⟨k2, v2⟩ := p
    by_cases h2 : k2 = k
    · subst h2
      simp [assocGet] at h
      simp [h]
    · simp only [assocGet, if_neg h2] at h
      exact List.mem_cons_of_mem _ (ih h)

theorem assocGet_map_value {α β : Type} (g : String → α → β) (m : List (String × α))
    (k : String) :
    assocGet (m.map fun p => (p.1, g p.1 p.2)) k = (assocGet m k).map (g k) := by
  induction m with
  | nil => simp [assocGet]
  | cons p rest ih =>
    obtain ⟨k2, v2⟩ := p
    by_cases h : k2 = k
    · subst h; simp [assocGet]
    · simp [assocGet, h, ih]

/-! ### Kahn's algorithm: the inner decrement loop -/

namespace DependencyGraph

theorem degOf_kahnStep (b : KahnState) (d id : String) :
    degOf (kahnStep b d).inDeg id
      = if id = d then degOf b.inDeg d - 1 else degOf b.inDeg id := by
  unfold kahnStep degOf
  by_cases h : id = d
  · subst h
    simp [assocGet_set_self]
  · simp [assocGet_set_ne _ _ h, h]

theorem kahnStep_queue (b : KahnState) (d : String) :
    (kahnStep b d).queue
      = b.queue ++ (if degOf b.inDeg d - 1 = 0 then [d] else []) := by
  unfold kahnStep degOf
  by_cases h : (assocGet b.inDeg d).getD 0 - 1 = 0
  · simp [h]
  · simp [h]

theorem kahnStep_sorted (b : KahnState) (d : String) :
    (kahnStep b d).sorted = b.sorted := rfl

/-- Exact effect of folding the inner decrement loop over a dependents list:
counters drop by occurrence counts, the queue is extended by a duplicate-free
list of ids pushed exactly when their counter runs out. -/
theorem kahnStep_foldl_spec (ds : List String) (b : KahnState) :
    ∃ pushed : List String,
      (ds.foldl kahnStep b).queue = b.queue ++ pushed ∧
      (ds.foldl kahnStep b).sorted = b.sorted ∧
      (∀ id, degOf (ds.foldl kahnStep b).inDeg id
        = degOf b.inDeg id - (ds.count id : Int)) ∧
      pushed.Nodup ∧
      (∀ id ∈ pushed, 1 ≤ degOf b.inDeg id ∧
        degOf b.inDeg id ≤ (ds.count id : Int)) ∧
      (∀ id, degOf b.inDeg id = (ds.count id : Int) →
        1 ≤ (ds.count id : Int) → id ∈ pushed) := by
  induction ds generalizing b with
  | nil =>
    refine ⟨[], by simp, rfl, ?_, List.nodup_nil, by simp, ?_⟩
    · intro id; simp
    · intro id h h1
      simp at h1
  | cons d ds2 ih =>
    obtain ⟨p2, hq2, hs2, hd2, hnd2, he2, hf2⟩ := ih (kahnStep b d)
    refine ⟨(if degOf b.inDeg d - 1 = 0 then [d] else []) ++ p2, ?_, ?_, ?_, ?_, ?_, ?_⟩
    · rw [List.foldl_cons, hq2, kahnStep_queue, List.append_assoc]
    · rw [List.foldl_cons, hs2, kahnStep_sorted]
    · intro id
      rw [List.foldl_cons, hd2 id, degOf_kahnStep]
      by_cases h : id = d
      · subst h
        rw [if_pos rfl, List.count_cons_self]
        push_cast
        omega
      · rw [if_neg h, List.count_cons_of_ne h]
    · by_cases h0 : degOf b.inDeg d - 1 = 0
      · rw [if_pos h0]
        refine List.Nodup.cons ?_ hnd2
        intro hd
        have := (he2 d hd).1
        rw [degOf_kahnStep, if_pos rfl] at this
        omega
      · rw [if_neg h0]
        simpa using hnd2
    · intro id hid
      rcases List.mem_append.mp hid with hid | hid
      · by_cases h0 : degOf b.inDeg d - 1 = 0
        · rw [if_pos h0] at hid
          simp at hid
          subst hid
          rw [List.count_cons_self]

          constructor
          · omega
          · push_cast
            omega
        · rw [if_neg h0] at hid
          simp at hid
      · have := he2 id hid
        rw [degOf_kahnStep] at this
        by_cases h : id = d
        · subst h
          rw [if_pos rfl] at this
          rw [List.count_cons_self]
          push_cast
          push_cast at this
          omega
        · rw [if_neg h] at this
          rw [List.count_cons_of_ne h]
          exact this
    · intro id hdeg h1
      by_cases h : id = d
      · subst h
        rw [List.count_cons_self] at hdeg h1
        by_cases hc : ds2.count id = 0
        · have h0 : degOf b.inDeg id - 1 = 0 := by
            push_cast at hdeg
            omega
          rw [if_pos h0]
          simp
        · have : degOf (kahnStep b id).inDeg id = (ds2.count id : Int) := by
            rw [degOf_kahnStep, if_pos rfl, hdeg]
            push_cast
            omega
          have hmem := hf2 id this (by omega)
          exact List.mem_append.mpr (Or.inr hmem)
      · rw [List.count_cons_of_ne h] at hdeg h1
        have : degOf (kahnStep b d).inDeg id = (ds2.count id : Int) := by
          rw [degOf_kahnStep, if_neg h, hdeg]
        exact List.mem_append.mpr (Or.inr (hf2 id this h1))

theorem unsortedDepCount_nonneg (nodes : List (String × DependencyNode))
    (sorted : List String) (node : DependencyNode) :
    0 ≤ unsortedDepCount nodes sorted node := by
  unfold unsortedDepCount
  positivity

theorem unsortedDepCount_eq_zero_iff (nodes : List (String × DependencyNode))
    (sorted : List String) (node : DependencyNode) :
    unsortedDepCount nodes sorted node = 0 ↔
      ∀ d ∈ node.dependsOn, (assocGet nodes d).isSome = true → d ∈ sorted := by
  unfold unsortedDepCount
  rw [show ((((node.dependsOn.filter
      (fun d => (assocGet nodes d).isSome && decide (d ∉ sorted))).length : Int) = 0) ↔
      ((node.dependsOn.filter
        (fun d => (assocGet nodes d).isSome && decide (d ∉ sorted))).length = 0)) by
    omega]
  rw [List.length_eq_zero, List.filter_eq_nil]
  constructor
  · intro h d hd hsome
    by_contra hns
    have := h d hd
    simp [hsome, hns] at this
  · intro h d hd
    by_cases hsome : (assocGet nodes d).isSome = true
    · simp [hsome, h d hd hsome]
    · simp [hsome]

theorem unsortedDepCount_snoc (nodes : List (String × DependencyNode))
    (sorted : List String) (node : DependencyNode) (n : String)
    (hsome : (assocGet nodes n).isSome = true) (hns : n ∉ sorted) :
    unsortedDepCount nodes (sorted ++ [n]) node
      = unsortedDepCount nodes sorted node - (node.dependsOn.count n : Int) := by
  unfold unsortedDepCount
  induction node.dependsOn with
  | nil => simp
  | cons d tl ih =>
    rw [List.filter_cons, List.filter_cons]
    by_cases hd : d = n
    · subst hd
      have h1 : ((assocGet nodes d).isSome && decide (d ∉ sorted ++ [d])) = false := by
        simp
      have h2 : ((assocGet nodes d).isSome && decide (d ∉ sorted)) = true := by
        simp [hsome, hns]
      rw [h1, h2, List.count_cons_self]
      simp only [Bool.false_eq_true, if_false, if_true, List.length_cons]
      push_cast
      push_cast at ih
      omega
    · have hiff : (d ∉ sorted ++ [n]) ↔ (d ∉ sorted) := by simp [hd]
      have hpe : decide (d ∉ sorted ++ [n]) = decide (d ∉ sorted) :=
        decide_eq_decide.mpr hiff
      rw [hpe, List.count_cons_of_ne (fun hh => hd hh.symm)]
      by_cases hp : ((assocGet nodes d).isSome && decide (d ∉ sorted)) = true
      · rw [if_pos hp, if_pos hp]
        simp only [List.length_cons]
        push_cast
        push_cast at ih
        omega
      · rw [if_neg hp, if_neg hp]
        exact ih

theorem transGen_self_closure {α : Type} (r : α → α → Prop) (a : α)
    (h : Relation.TransGen r a a) : ∃ d, r a d ∧ Relation.TransGen r d d := by
  obtain ⟨b, hab, hba⟩ := Relation.TransGen.head'_iff.mp h
  rcases Relation.reflTransGen_iff_eq_or_transGen.mp hba with heq | htg
  · subst heq
    exact ⟨_, hab, Relation.TransGen.single hab⟩
  · exact ⟨b, hab, htg.trans (Relation.TransGen.single hab)⟩

/-- Preservation of the Kahn invariant by one iteration of the `while`
loop: pop `n`, append it to the output, decrement its dependents. -/
theorem kahnLoop_step_inv (nodes : List (String × DependencyNode))
    (HDC : ∀ d nd, assocGet nodes d = some nd → ∀ id n2, assocGet nodes id = some n2 →
      nd.dependents.count id = n2.dependsOn.count d)
    (HDK : ∀ d nd, assocGet nodes d = some nd → ∀ x ∈ nd.dependents,
      (assocGet nodes x).isSome = true)
    (st : KahnState) (hinv : KahnInv nodes st)
    (n : String) (rest : List String) (hq : st.queue = n :: rest) :
    KahnInv nodes
      ((((assocGet nodes n).getD ⟨n, [], []⟩).dependents).foldl kahnStep
        { st with queue := rest, sorted := st.sorted ++ [n] }) := by
  obtain ⟨hE, hND, hK, hD, hZ, hC⟩ := hinv
  have hnq : n ∈ st.queue := by rw [hq]; exact List.mem_cons_self n rest
  have hnsome : (assocGet nodes n).isSome = true :=
    hK n (List.mem_append.mpr (Or.inr hnq))
  obtain ⟨node_n, hnode_n⟩ := Option.isSome_iff_exists.mp hnsome
  have hgetD : (assocGet nodes n).getD ⟨n, [], []⟩ = node_n := by
    rw [hnode_n]; rfl
  have hdisj := (List.nodup_append.mp hND).2.2
  have hnotin_sorted : n ∉ st.sorted := fun hmem => hdisj hmem hnq
  rw [hgetD]
  obtain ⟨pushed, hq2, hs2, hd2, hnd2, he2, hf2⟩ :=
    kahnStep_foldl_spec node_n.dependents { st with queue := rest, sorted := st.sorted ++ [n] }
  simp only at hq2 hs2 hd2 he2 hf2
  -- counting bridge: occurrences in the dependents of `n` = occurrences of `n`
  -- in the dependency list
  have hcount : ∀ id n2, assocGet nodes id = some n2 →
      node_n.dependents.count id = n2.dependsOn.count n :=
    fun id n2 h2 => HDC n node_n hnode_n id n2 h2
  have hsub : ∀ id ∈ pushed, id ∈ node_n.dependents := by
    intro id hid
    have h1 := (he2 id hid).1
    have h2 := (he2 id hid).2
    have : 0 < node_n.dependents.count id := by omega
    exact List.count_pos_iff_mem.mp this
  have hpushed_some : ∀ id ∈ pushed, (assocGet nodes id).isSome = true :=
    fun id hid => HDK n node_n hnode_n id (hsub id hid)
  have holdzero : ∀ id ∈ st.sorted ++ st.queue, degOf st.inDeg id = 0 := by
    intro id hid
    obtain ⟨n2, h2⟩ := Option.isSome_iff_exists.mp (hK id hid)
    rw [hE id n2 h2]
    exact (unsortedDepCount_eq_zero_iff nodes st.sorted n2).mpr
      (fun d hd hs => hD id hid n2 h2 d hd hs)
  have hpushed_fresh : ∀ id ∈ pushed, id ∉ st.sorted ++ st.queue := by
    intro id hid hmem
    have h1 := (he2 id hid).1
    rw [holdzero id hmem] at h1
    omega
  have hEpost : ∀ id n2, assocGet nodes id = some n2 →
      degOf (node_n.dependents.foldl kahnStep
        { st with queue := rest, sorted := st.sorted ++ [n] }).inDeg id
        = unsortedDepCount nodes (st.sorted ++ [n]) n2 := by
    intro id n2 h2
    rw [hd2 id, hE id n2 h2, hcount id n2 h2,
      unsortedDepCount_snoc nodes st.sorted n2 n hnsome hnotin_sorted]
  have hDpushed : ∀ id ∈ pushed, ∀ n2, assocGet nodes id = some n2 →
      ∀ d ∈ n2.dependsOn, (assocGet nodes d).isSome = true → d ∈ st.sorted ++ [n] := by
    intro id hid n2 h2
    have hle := (he2 id hid).2
    have hz : unsortedDepCount nodes (st.sorted ++ [n]) n2 = 0 := by
      have hnn := unsortedDepCount_nonneg nodes (st.sorted ++ [n]) n2
      have heq := hEpost id n2 h2
      rw [hd2 id] at heq
      omega
    exact (unsortedDepCount_eq_zero_iff nodes (st.sorted ++ [n]) n2).mp hz
  refine ⟨?_, ?_, ?_, ?_, ?_, ?_⟩
  · intro id n2 h2
    rw [hEpost id n2 h2, hs2]
  · rw [hs2, hq2]
    have horig : ((st.sorted ++ [n]) ++ rest).Nodup := by
      have : st.sorted ++ st.queue = (st.sorted ++ [n]) ++ rest := by
        rw [hq]; simp
      rwa [this] at hND
    rw [show (st.sorted ++ [n]) ++ (rest ++ pushed)
        = ((st.sorted ++ [n]) ++ rest) ++ pushed by simp]
    rw [List.nodup_append]
    refine ⟨horig, hnd2, ?_⟩
    intro a ha hap
    apply hpushed_fresh a hap
    rcases List.mem_append.mp ha with h1 | h1
    · rcases List.mem_append.mp h1 with h3 | h3
      · exact List.mem_append.mpr (Or.inl h3)
      · simp at h3
        subst h3
        exact List.mem_append.mpr (Or.inr hnq)
    · exact List.mem_append.mpr (Or.inr (by rw [hq]; exact List.mem_cons_of_mem _ h1))
  · intro id hid
    rw [hs2, hq2] at hid
    rcases List.mem_append.mp hid with h1 | h1
    · rcases List.mem_append.mp h1 with h3 | h3
      · exact hK id (List.mem_append.mpr (Or.inl h3))
      · simp at h3
        subst h3
        exact hnsome
    · rcases List.mem_append.mp h1 with h3 | h3
      · exact hK id (List.mem_append.mpr (Or.inr (by rw [hq]; exact List.mem_cons_of_mem _ h3)))
      · exact hpushed_some id h3
  · intro id hid n2 h2 d hd hdsome
    rw [hs2, hq2] at hid
    rw [hs2]
    rcases List.mem_append.mp hid with h1 | h1
    · rcases List.mem_append.mp h1 with h3 | h3
      · exact List.mem_append.mpr (Or.inl (hD id (List.mem_append.mpr (Or.inl h3)) n2 h2 d hd hdsome))
      · simp at h3
        subst h3
        exact List.mem_append.mpr (Or.inl (hD id (List.mem_append.mpr (Or.inr hnq)) n2 h2 d hd hdsome))
    · rcases List.mem_append.mp h1 with h3 | h3
      · exact List.mem_append.mpr (Or.inl (hD id
          (List.mem_append.mpr (Or.inr (by rw [hq]; exact List.mem_cons_of_mem _ h3))) n2 h2 d hd hdsome))
      · exact hDpushed id h3 n2 h2 d hd hdsome
  · intro id n2 h2 hdeg
    rw [hs2, hq2]
    rw [hd2 id] at hdeg
    by_cases hc : node_n.dependents.count id = 0
    · have hz0 : degOf st.inDeg id = 0 := by
        rw [hc] at hdeg
        push_cast at hdeg
        omega
      rcases hZ id n2 h2 hz0 with h3 | h3
      · exact Or.inl (List.mem_append.mpr (Or.inl h3))
      · rw [hq] at h3
        rcases List.mem_cons.mp h3 with h4 | h4
        · subst h4
          exact Or.inl (List.mem_append.mpr (Or.inr (by simp)))
        · exact Or.inr (List.mem_append.mpr (Or.inl h4))
    · have hdd : degOf st.inDeg id = (node_n.dependents.count id : Int) := by omega
      have := hf2 id hdd (by omega)
      exact Or.inr (List.mem_append.mpr (Or.inr this))
  · intro a hcyc
    obtain ⟨hans, hanq⟩ := hC a hcyc
    rw [hs2, hq2]
    constructor
    · intro hmem
      rcases List.mem_append.mp hmem with h1 | h1
      · exact hans h1
      · simp at h1
        subst h1
        exact hanq hnq
    · intro hmem
      rcases List.mem_append.mp hmem with h1 | h1
      · exact hanq (by rw [hq]; exact List.mem_cons_of_mem _ h1)
      · obtain ⟨n_a, h_a⟩ := Option.isSome_iff_exists.mp (hpushed_some a h1)
        obtain ⟨d, hstep, hdcyc⟩ := transGen_self_closure (nodeStep nodes) a hcyc
        obtain ⟨node2, hget2, hd_dep, hdsome⟩ := hstep
        have := hDpushed a h1 node2 hget2 d hd_dep hdsome
        rcases List.mem_append.mp this with h3 | h3
        · exact (hC d hdcyc).1 h3
        · simp at h3
          subst h3
          exact (hC d hdcyc).2 hnq

theorem kahnInv_length_le (nodes : List (String × DependencyNode)) (st : KahnState)
    (hkeysnd : (nodes.map Prod.fst).Nodup) (hinv : KahnInv nodes st) :
    st.sorted.length + st.queue.length ≤ nodes.length := by
  obtain ⟨-, hND, hK, -, -, -⟩ := hinv
  have hsub : st.sorted ++ st.queue ⊆ nodes.map Prod.fst := by
    intro a ha
    exact (assocGet_isSome_iff nodes a).mp (hK a ha)
  have := (List.subperm_of_subset hND hsub).length_le
  rw [List.length_append] at this
  simpa using this

/-- With fuel at least `nodes.length + 1 - |sorted|`, Kahn's `while` loop
runs to completion: the invariant holds at the final state and the queue is
exhausted (the fuel cap of the embedding is never the reason the loop
stops). -/
theorem kahnLoop_adequate (nodes : List (String × DependencyNode))
    (HDC : ∀ d nd, assocGet nodes d = some nd → ∀ id n2, assocGet nodes id = some n2 →
      nd.dependents.count id = n2.dependsOn.count d)
    (HDK : ∀ d nd, assocGet nodes d = some nd → ∀ x ∈ nd.dependents,
      (assocGet nodes x).isSome = true)
    (hkeysnd : (nodes.map Prod.fst).Nodup) :
    ∀ (fuel : Nat) (st : KahnState), KahnInv nodes st →
      nodes.length + 1 ≤ fuel + st.sorted.length →
      KahnInv nodes (kahnLoop nodes fuel st) ∧ (kahnLoop nodes fuel st).queue = [] := by
  intro fuel
  induction fuel with
  | zero =>
    intro st hinv hfuel
    have := kahnInv_length_le nodes st hkeysnd hinv
    omega
  | succ f ih =>
    intro st hinv hfuel
    obtain ⟨ideg, q, srt⟩ := st
    cases q with
    | nil =>
      exact ⟨hinv, rfl⟩
    | cons n rest =>
      have hstep := kahnLoop_step_inv nodes HDC HDK ⟨ideg, n :: rest, srt⟩ hinv n rest rfl
      obtain ⟨pushed, hq2, hs2, -⟩ := kahnStep_foldl_spec
        ((assocGet nodes n).getD ⟨n, [], []⟩).dependents
        { inDeg := ideg, queue := rest, sorted := srt ++ [n] }
      simp only [kahnLoop]
      apply ih _ hstep
      rw [hs2]
      simp only [List.length_append, List.length_singleton]
      simp only [KahnState.sorted] at hfuel
      omega

theorem mem_assocGet_of_nodup {α : Type} {m : List (String × α)} {k : String} {v : α}
    (hnd : (m.map Prod.fst).Nodup) (hmem : (k, v) ∈ m) : assocGet m k = some v := by
  induction m with
  | nil => simp at hmem
  | cons p rest ih =>
    obtain ⟨k2, v2⟩ := p
    simp only [List.map_cons, List.nodup_cons] at hnd
    rcases List.mem_cons.mp hmem with h1 | h1
    · obtain ⟨hk, hv⟩ := Prod.mk.injEq .. ▸ h1
      injection h1 with hk hv
      subst hk
      subst hv
      simp [assocGet]
    · have hne : k2 ≠ k := by
        intro hc
        subst hc
        exact hnd.1 (List.mem_map_of_mem Prod.fst h1)
      simp only [assocGet, if_neg hne]
      exact ih hnd.2 h1

theorem assocGet_map_snd {α β : Type} (g : α → β) (m : List (String × α)) (k : String) :
    assocGet (m.map fun p => (p.1, g p.2)) k = (assocGet m k).map g := by
  induction m with
  | nil => simp [assocGet]
  | cons p rest ih =>
    obtain ⟨k2, v2⟩ := p
    by_cases h : k2 = k
    · subst h; simp [assocGet]
    · simp [assocGet, h, ih]

theorem assocGet_initInDeg_aux (nodes l : List (String × DependencyNode)) (id : String) :
    assocGet (l.map fun p =>
        (p.1, ((p.2.dependsOn.filter (fun dep => (assocGet nodes dep).isSome)).length : Int))) id
      = (assocGet l id).map
        (fun node =>
          ((node.dependsOn.filter (fun dep => (assocGet nodes dep).isSome)).length : Int)) := by
  induction l with
  | nil => simp [assocGet]
  | cons p rest ih =>
    obtain ⟨k2, v2⟩ := p
    by_cases h : k2 = id
    · subst h; simp [assocGet]
    · simp [assocGet, h, ih]

theorem assocGet_initInDeg (nodes : List (String × DependencyNode)) (id : String) :
    assocGet (initInDeg nodes) id = (assocGet nodes id).map
      (fun node =>
        ((node.dependsOn.filter (fun dep => (assocGet nodes dep).isSome)).length : Int)) := by
  unfold initInDeg
  exact assocGet_initInDeg_aux nodes nodes id

theorem unsortedDepCount_nil (nodes : List (String × DependencyNode))
    (node : DependencyNode) :
    unsortedDepCount nodes [] node
      = ((node.dependsOn.filter (fun dep => (assocGet nodes dep).isSome)).length : Int) := by
  unfold unsortedDepCount
  congr 1
  apply congrArg
  apply List.filter_congr
  intro d _
  simp

theorem map_fst_map_pair {α β : Type} (f : (String × α) → β) (l : List (String × α)) :
    (l.map fun p => (p.1, f p)).map Prod.fst = l.map Prod.fst := by
  induction l with
  | nil => rfl
  | cons p rest ih => simp [ih]

theorem initInDeg_keys (nodes : List (String × DependencyNode)) :
    (initInDeg nodes).map Prod.fst = nodes.map Prod.fst := by
  unfold initInDeg
  exact map_fst_map_pair _ nodes

theorem initQueue_deg_zero (nodes : List (String × DependencyNode))
    (hkeysnd : (nodes.map Prod.fst).Nodup) {id : String} (hid : id ∈ initQueue nodes) :
    degOf (initInDeg nodes) id = 0 := by
  unfold initQueue at hid
  obtain ⟨p, hp, hfst⟩ := List.mem_map.mp hid
  obtain ⟨hpm, hpz⟩ := List.mem_filter.mp hp
  obtain ⟨k2, v2⟩ := p
  simp only at hfst
  subst hfst
  simp only [decide_eq_true_eq] at hpz
  have hnd2 : ((initInDeg nodes).map Prod.fst).Nodup := by
    rw [initInDeg_keys]; exact hkeysnd
  unfold degOf
  rw [mem_assocGet_of_nodup hnd2 hpm]
  simpa using hpz

/-- The invariant holds at the initial state of Kahn's algorithm. -/
theorem kahnInit_inv (nodes : List (String × DependencyNode))
    (hkeysnd : (nodes.map Prod.fst).Nodup) :
    KahnInv nodes ⟨initInDeg nodes, initQueue nodes, []⟩ := by
  have hdeg : ∀ id node, assocGet nodes id = some node →
      degOf (initInDeg nodes) id = unsortedDepCount nodes [] node := by
    intro id node h2
    unfold degOf
    rw [assocGet_initInDeg, h2, unsortedDepCount_nil]
    rfl
  have hqk : ∀ id ∈ initQueue nodes, (assocGet nodes id).isSome = true := by
    intro id hid
    unfold initQueue at hid
    obtain ⟨p, hp, hfst⟩ := List.mem_map.mp hid
    have hpm := (List.mem_filter.mp hp).1
    rw [assocGet_isSome_iff, ← initInDeg_keys]
    subst hfst
    exact List.mem_map_of_mem Prod.fst hpm
  refine ⟨?_, ?_, ?_, ?_, ?_, ?_⟩
  · exact fun id node h2 => hdeg id node h2
  · show (([] : List String) ++ initQueue nodes).Nodup
    rw [List.nil_append]
    unfold initQueue
    apply List.Nodup.sublist (List.Sublist.map Prod.fst ((initInDeg nodes).filter_sublist))
    rw [initInDeg_keys]
    exact hkeysnd
  · intro id hid
    rw [List.nil_append] at hid
    exact hqk id hid
  · intro id hid node h2 d hd hdsome
    rw [List.nil_append] at hid
    have hz := initQueue_deg_zero nodes hkeysnd hid
    rw [hdeg id node h2] at hz
    exact ((unsortedDepCount_eq_zero_iff nodes [] node).mp hz) d hd hdsome
  · intro id node h2 hz
    right
    show id ∈ initQueue nodes
    have hsome : assocGet (initInDeg nodes) id
        = some ((node.dependsOn.filter
            (fun dep => (assocGet nodes dep).isSome)).length : Int) := by
      rw [assocGet_initInDeg, h2]
      rfl
    have hmem := assocGet_mem hsome
    unfold degOf at hz
    rw [hsome] at hz
    simp only [Option.getD_some] at hz
    unfold initQueue
    apply List.mem_map.mpr
    exact ⟨(id, ((node.dependsOn.filter
        (fun dep => (assocGet nodes dep).isSome)).length : Int)),
      List.mem_filter.mpr ⟨hmem, by simpa using hz⟩, rfl⟩
  · intro a hcyc
    constructor
    · simp
    · intro hmem
      have hmem2 : a ∈ initQueue nodes := hmem
      obtain ⟨d, hstep, -⟩ := transGen_self_closure (nodeStep nodes) a hcyc
      obtain ⟨node_a, hget_a, hd_dep, hdsome⟩ := hstep
      have hz := initQueue_deg_zero nodes hkeysnd hmem2
      rw [hdeg a node_a hget_a, unsortedDepCount_nil] at hz
      have hdm : d ∈ node_a.dependsOn.filter (fun dep => (assocGet nodes dep).isSome) :=
        List.mem_filter.mpr ⟨hd_dep, hdsome⟩
      have := List.length_pos.mpr (List.ne_nil_of_mem hdm)
      omega

/-- A list closed under an endofunction that always takes a proper step
contains a cycle of the step relation (by pigeonhole on iterates). -/
theorem cycle_of_closed_endo {α : Type} (R : List α) (r0 : α) (h0 : r0 ∈ R)
    (f : α → α) (step : α → α → Prop)
    (hf : ∀ x ∈ R, f x ∈ R ∧ step x (f x)) :
    ∃ a, Relation.TransGen step a a := by
  set g : Nat → α := fun i => f^[i] r0 with hg
  have hgR : ∀ i, g i ∈ R := by
    intro i
    induction i with
    | zero => simpa [hg] using h0
    | succ k ihk =>
      have hsucc : g (k + 1) = f (g k) := by
        simp [hg, Function.iterate_succ_apply']
      rw [hsucc]
      exact (hf (g k) ihk).1
  have hstep1 : ∀ i, step (g i) (g (i + 1)) := by
    intro i
    have hsucc : g (i + 1) = f (g i) := by
      simp [hg, Function.iterate_succ_apply']
    rw [hsucc]
    exact (hf (g i) (hgR i)).2
  have htrans : ∀ i k, Relation.TransGen step (g i) (g (i + k + 1)) := by
    intro i k
    induction k with
    | zero => exact Relation.TransGen.single (hstep1 i)
    | succ k2 ihk =>
      have harith : i + (k2 + 1) + 1 = (i + k2 + 1) + 1 := by omega
      rw [harith]
      exact Relation.TransGen.tail ihk (hstep1 (i + k2 + 1))
  have hpigeon : ∃ i j : Fin (R.length + 1), i ≠ j ∧ g i.val = g j.val := by
    by_contra hcon
    push_neg at hcon
    have hinj : Function.Injective (fun i : Fin (R.length + 1) => g i.val) := by
      intro i j hij
      by_contra hne
      exact (hcon i j hne) hij
    have hnodup : ((List.finRange (R.length + 1)).map (fun i => g i.val)).Nodup :=
      (List.nodup_finRange _).map hinj
    have hsub : ((List.finRange (R.length + 1)).map (fun i => g i.val)) ⊆ R := by
      intro x hx
      obtain ⟨i, -, rfl⟩ := List.mem_map.mp hx
      exact hgR i.val
    have hle := (List.subperm_of_subset hnodup hsub).length_le
    rw [List.length_map, List.length_finRange] at hle
    omega
  obtain ⟨i, j, hne, heq⟩ := hpigeon
  have hvne : i.val ≠ j.val := fun hv => hne (Fin.ext hv)
  rcases Nat.lt_or_ge i.val j.val with hlt | hge
  · refine ⟨g i.val, ?_⟩
    have harith : j.val = i.val + (j.val - i.val - 1) + 1 := by omega
    have ht := htrans i.val (j.val - i.val - 1)
    rw [← harith] at ht
    rw [← heq] at ht
    exact ht
  · have hlt2 : j.val < i.val := by omega
    refine ⟨g j.val, ?_⟩
    have harith : i.val = j.val + (i.val - j.val - 1) + 1 := by omega
    have ht := htrans j.val (i.val - j.val - 1)
    rw [← harith] at ht
    rw [heq] at ht
    exact ht

/-- Invariant and empty queue at the final state of `topologicalSort`. -/
theorem topologicalSort_final (nodes : List (String × DependencyNode))
    (HDC : ∀ d nd, assocGet nodes d = some nd → ∀ id n2, assocGet nodes id = some n2 →
      nd.dependents.count id = n2.dependsOn.count d)
    (HDK : ∀ d nd, assocGet nodes d = some nd → ∀ x ∈ nd.dependents,
      (assocGet nodes x).isSome = true)
    (hkeysnd : (nodes.map Prod.fst).Nodup) :
    KahnInv nodes (kahnLoop nodes (nodes.length + 1)
        ⟨initInDeg nodes, initQueue nodes, []⟩) ∧
      (kahnLoop nodes (nodes.length + 1)
        ⟨initInDeg nodes, initQueue nodes, []⟩).queue = [] := by
  apply kahnLoop_adequate nodes HDC HDK hkeysnd
  · exact kahnInit_inv nodes hkeysnd
  · simp

/-- If the graph has a cycle, the sort reports one, and every id on a cycle
lands in the reported remainder set. -/
theorem topologicalSort_of_cycle (nodes : List (String × DependencyNode))
    (HDC : ∀ d nd, assocGet nodes d = some nd → ∀ id n2, assocGet nodes id = some n2 →
      nd.dependents.count id = n2.dependsOn.count d)
    (HDK : ∀ d nd, assocGet nodes d = some nd → ∀ x ∈ nd.dependents,
      (assocGet nodes x).isSome = true)
    (hkeysnd : (nodes.map Prod.fst).Nodup)
    (hcyc : ∃ a, Relation.TransGen (nodeStep nodes) a a) :
    (topologicalSort nodes).hasCycle = true ∧
      ∀ a, Relation.TransGen (nodeStep nodes) a a →
        a ∈ (topologicalSort nodes).cycleNodes.getD [] := by
  obtain ⟨hinv, hqe⟩ := topologicalSort_final nodes HDC HDK hkeysnd
  set stF := kahnLoop nodes (nodes.length + 1) ⟨initInDeg nodes, initQueue nodes, []⟩
    with hstF
  obtain ⟨hE, hND, hK, hD, hZ, hC⟩ := hinv
  have hmemkeys : ∀ a, Relation.TransGen (nodeStep nodes) a a →
      a ∈ nodes.map Prod.fst := by
    intro a ha
    obtain ⟨d, hstep, -⟩ := transGen_self_closure (nodeStep nodes) a ha
    obtain ⟨node_a, hget_a, -, -⟩ := hstep
    rw [← assocGet_isSome_iff, hget_a]
    rfl
  have hlen : stF.sorted.length ≠ nodes.length := by
    obtain ⟨a0, ha0⟩ := hcyc
    have ha0s : a0 ∉ stF.sorted := (hC a0 ha0).1
    have ha0k : a0 ∈ nodes.map Prod.fst := hmemkeys a0 ha0
    have hnodup2 : (stF.sorted ++ [a0]).Nodup := by
      rw [List.nodup_append]
      refine ⟨(List.nodup_append.mp hND).1, List.nodup_singleton a0, ?_⟩
      intro x hx hx2
      simp at hx2
      subst hx2
      exact ha0s hx
    have hsub2 : stF.sorted ++ [a0] ⊆ nodes.map Prod.fst := by
      intro x hx
      rcases List.mem_append.mp hx with h1 | h1
      · exact (assocGet_isSome_iff nodes x).mp
          (hK x (List.mem_append.mpr (Or.inl h1)))
      · simp at h1
        subst h1
        exact ha0k
    have := (List.subperm_of_subset hnodup2 hsub2).length_le
    rw [List.length_append, List.length_map] at this
    simp only [List.length_singleton] at this
    omega
  constructor
  · unfold topologicalSort
    rw [← hstF, if_pos hlen]
  · intro a ha
    unfold topologicalSort
    rw [← hstF, if_pos hlen]
    simp only [Option.getD_some]
    apply List.mem_filter.mpr
    exact ⟨hmemkeys a ha, by simpa using (hC a ha).1⟩

/-- If the sort reports a cycle, the graph genuinely contains one. -/
theorem cycle_of_topologicalSort (nodes : List (String × DependencyNode))
    (HDC : ∀ d nd, assocGet nodes d = some nd → ∀ id n2, assocGet nodes id = some n2 →
      nd.dependents.count id = n2.dependsOn.count d)
    (HDK : ∀ d nd, assocGet nodes d = some nd → ∀ x ∈ nd.dependents,
      (assocGet nodes x).isSome = true)
    (hkeysnd : (nodes.map Prod.fst).Nodup)
    (h : (topologicalSort nodes).hasCycle = true) :
    ∃ a, Relation.TransGen (nodeStep nodes) a a := by
  obtain ⟨hinv, hqe⟩ := topologicalSort_final nodes HDC HDK hkeysnd
  set stF := kahnLoop nodes (nodes.length + 1) ⟨initInDeg nodes, initQueue nodes, []⟩
    with hstF
  obtain ⟨hE, hND, hK, hD, hZ, hC⟩ := hinv
  have hlen : stF.sorted.length ≠ nodes.length := by
    by_contra hc
    unfold topologicalSort at h
    rw [← hstF, if_neg (by simpa using hc)] at h
    simp at h
  classical
  set R := (nodes.map Prod.fst).filter (fun id => decide (id ∉ stF.sorted)) with hR
  have hRne : R ≠ [] := by
    intro hcon
    have hsubs : nodes.map Prod.fst ⊆ stF.sorted := by
      intro x hx
      by_contra hxs
      have : x ∈ R := by
        rw [hR]
        exact List.mem_filter.mpr ⟨hx, by simpa using hxs⟩
      rw [hcon] at this
      simp at this
    have h1 := (List.subperm_of_subset hkeysnd hsubs).length_le
    have hnods : stF.sorted.Nodup := (List.nodup_append.mp hND).1
    have hsubs2 : stF.sorted ⊆ nodes.map Prod.fst := fun x hx =>
      (assocGet_isSome_iff nodes x).mp (hK x (List.mem_append.mpr (Or.inl hx)))
    have h2 := (List.subperm_of_subset hnods hsubs2).length_le
    rw [List.length_map] at h1 h2
    omega
  have hstepex : ∀ r ∈ R, ∃ d, d ∈ R ∧ nodeStep nodes r d := by
    intro r hr
    obtain ⟨hrk, hrs⟩ := List.mem_filter.mp (hR ▸ hr)
    have hrs2 : r ∉ stF.sorted := by simpa using hrs
    obtain ⟨node_r, hget_r⟩ := Option.isSome_iff_exists.mp
      ((assocGet_isSome_iff nodes r).mpr hrk)
    have hdeg : degOf stF.inDeg r ≠ 0 := by
      intro h0
      rcases hZ r node_r hget_r h0 with hx | hx
      · exact hrs2 hx
      · rw [hqe] at hx
        simp at hx
    rw [hE r node_r hget_r] at hdeg
    have hpos : 0 < (node_r.dependsOn.filter
        (fun d => (assocGet nodes d).isSome && decide (d ∉ stF.sorted))).length := by
      have hnn := unsortedDepCount_nonneg nodes stF.sorted node_r
      unfold unsortedDepCount at hdeg hnn
      omega
    obtain ⟨d, hdmem⟩ := List.exists_mem_of_length_pos hpos
    obtain ⟨hd_dep, hd_pred⟩ := List.mem_filter.mp hdmem
    rw [Bool.and_eq_true] at hd_pred
    refine ⟨d, ?_, node_r, hget_r, hd_dep, hd_pred.1⟩
    rw [hR]
    apply List.mem_filter.mpr
    exact ⟨(assocGet_isSome_iff nodes d).mp hd_pred.1, hd_pred.2⟩
  set f : String → String := fun r =>
    if hex : ∃ d, d ∈ R ∧ nodeStep nodes r d then hex.choose else r with hfdef
  have hf : ∀ x ∈ R, f x ∈ R ∧ nodeStep nodes x (f x) := by
    intro x hx
    have hex := hstepex x hx
    rw [hfdef]
    simp only [dif_pos hex]
    exact ⟨hex.choose_spec.1, hex.choose_spec.2⟩
  obtain ⟨r0, hr0⟩ := List.exists_mem_of_length_pos
    (List.length_pos.mpr hRne)
  exact cycle_of_closed_endo R r0 hr0 f (nodeStep nodes) hf

end DependencyGraph

/-! ### Characterization of `DependencyGraph.build` for inputs with unique ids -/

theorem foldl_assocSet_fresh {α : Type} (f : WorkOrder → α) :
    ∀ (l : List WorkOrder) (m : List (String × α)),
      (∀ wo ∈ l, wo.docId ∉ m.map Prod.fst) →
      (l.map WorkOrder.docId).Nodup →
      l.foldl (fun m2 wo => assocSet wo.docId (f wo) m2) m
        = m ++ l.map (fun wo => (wo.docId, f wo)) := by
  intro l
  induction l with
  | nil => intro m _ _; simp
  | cons wo rest ih =>
    intro m hfresh hnd
    simp only [List.map_cons, List.nodup_cons] at hnd
    simp only [List.foldl_cons]
    rw [assocSet_of_not_mem (f wo) (hfresh wo (List.mem_cons_self _ _))]
    rw [ih (m ++ [(wo.docId, f wo)]) ?_ hnd.2]
    · simp
    · intro wo2 hwo2
      simp only [List.map_append, List.mem_append]
      push_neg
      constructor
      · exact hfresh wo2 (List.mem_cons_of_mem _ hwo2)
      · intro hc
        simp only [List.map_cons, List.map_nil, List.mem_singleton] at hc
        apply hnd.1
        rw [← hc]
        exact List.mem_map_of_mem WorkOrder.docId hwo2

theorem buildNodes_eq (workOrders : List WorkOrder)
    (hnd : (workOrders.map WorkOrder.docId).Nodup) :
    DependencyGraph.buildNodes workOrders
      = workOrders.map
          (fun wo => (wo.docId, ⟨wo.docId, wo.data.dependsOnWorkOrderIds, []⟩)) := by
  unfold DependencyGraph.buildNodes
  have := foldl_assocSet_fresh
    (fun wo => (⟨wo.docId, wo.data.dependsOnWorkOrderIds, []⟩ : DependencyNode))
    workOrders [] (by simp) hnd
  simpa using this

theorem pushDependent_foldl (docId : String) :
    ∀ (ds : List String) (m : List (String × DependencyNode)) (k : String),
      assocGet (ds.foldl (fun m2 depId =>
          if (assocGet m2 depId).isSome then
            assocUpdate depId
              (fun n => { n with dependents := n.dependents ++ [docId] }) m2
          else m2) m) k
        = (assocGet m k).map (fun n =>
            { n with dependents := n.dependents ++ List.replicate (ds.count k) docId }) := by
  intro ds
  induction ds with
  | nil =>
    intro m k
    cases h : assocGet m k <;> simp [h]
  | cons d ds2 ih =>
    intro m k
    simp only [List.foldl_cons]
    by_cases hks : (assocGet m d).isSome = true
    · rw [if_pos hks, ih]
      by_cases hkd : k = d
      · subst hkd
        rw [assocGet_update_self, List.count_cons_self]
        cases h : assocGet m k with
        | none => simp
        | some n =>
          simp only [Option.map_some']
          congr 1
          simp [List.replicate_succ, List.append_assoc]
      · rw [assocGet_update_ne _ m hkd, List.count_cons_of_ne hkd]
    · rw [if_neg hks, ih]
      by_cases hkd : k = d
      · subst hkd
        have hn : assocGet m k = none := by
          cases h : assocGet m k
          · rfl
          · rw [h] at hks; simp at hks
        rw [hn]
        rfl
      · rw [List.count_cons_of_ne hkd]

theorem build_foldl_get :
    ∀ (l : List WorkOrder) (m : List (String × DependencyNode)) (k : String),
      assocGet (l.foldl (fun m wo =>
          wo.data.dependsOnWorkOrderIds.foldl (fun m2 depId =>
            if (assocGet m2 depId).isSome then
              assocUpdate depId
                (fun n => { n with dependents := n.dependents ++ [wo.docId] }) m2
            else m2) m) m) k
        = (assocGet m k).map (fun n =>
            { n with dependents := n.dependents ++ DependencyGraph.dependentsOf l k }) := by
  intro l
  induction l with
  | nil =>
    intro m k
    cases h : assocGet m k <;> simp [h, DependencyGraph.dependentsOf]
  | cons wo rest ih =>
    intro m k
    simp only [List.foldl_cons]
    rw [ih, pushDependent_foldl]
    have hdep : DependencyGraph.dependentsOf (wo :: rest) k
        = List.replicate (wo.data.dependsOnWorkOrderIds.count k) wo.docId
          ++ DependencyGraph.dependentsOf rest k := by
      unfold DependencyGraph.dependentsOf
      simp
    rw [hdep]
    cases h : assocGet m k with
    | none => rfl
    | some n =>
      simp only [Option.map_some']
      congr 1
      simp [List.append_assoc]

theorem assocGet_map_docId {α : Type} (f : WorkOrder → α) :
    ∀ (l : List WorkOrder) (k : String),
      assocGet (l.map fun wo => (wo.docId, f wo)) k
        = (l.find? (fun wo => wo.docId == k)).map f := by
  intro l
  induction l with
  | nil => intro k; simp [assocGet]
  | cons wo rest ih =>
    intro k
    by_cases h : wo.docId = k
    · simp [assocGet, List.find?, h]
    · simp only [List.map_cons, assocGet, if_neg h, List.find?]
      rw [show (wo.docId == k) = false by simpa using h]
      exact ih k

/-- Full characterization of the built graph under unique ids. -/
theorem build_get (workOrders : List WorkOrder)
    (hnd : (workOrders.map WorkOrder.docId).Nodup) (k : String) :
    assocGet (DependencyGraph.build workOrders) k
      = (workOrders.find? (fun wo => wo.docId == k)).map
          (fun wo => ⟨wo.docId, wo.data.dependsOnWorkOrderIds,
            DependencyGraph.dependentsOf workOrders k⟩) := by
  unfold DependencyGraph.build
  rw [build_foldl_get workOrders (DependencyGraph.buildNodes workOrders) k]
  rw [buildNodes_eq workOrders hnd]
  rw [assocGet_map_docId (fun wo => (⟨wo.docId, wo.data.dependsOnWorkOrderIds, []⟩ :
    DependencyNode)) workOrders k]
  cases h : workOrders.find? (fun wo => wo.docId == k) with
  | none => rfl
  | some wo => simp

theorem find?_docId_eq_some (workOrders : List WorkOrder)
    (hnd : (workOrders.map WorkOrder.docId).Nodup) {wo : WorkOrder}
    (hmem : wo ∈ workOrders) :
    workOrders.find? (fun w => w.docId == wo.docId) = some wo := by
  induction workOrders with
  | nil => simp at hmem
  | cons w2 rest ih =>
    simp only [List.map_cons, List.nodup_cons] at hnd
    rcases List.mem_cons.mp hmem with h1 | h1
    · subst h1
      simp [List.find?]
    · by_cases h2 : w2.docId = wo.docId
      · exfalso
        apply hnd.1
        rw [h2]
        exact List.mem_map_of_mem WorkOrder.docId h1
      · simp only [List.find?]
        rw [show (w2.docId == wo.docId) = false by simpa using h2]
        exact ih hnd.2 h1

theorem mem_dependentsOf {workOrders : List WorkOrder} {k x : String}
    (h : x ∈ DependencyGraph.dependentsOf workOrders k) :
    ∃ wo ∈ workOrders, wo.docId = x ∧ k ∈ wo.data.dependsOnWorkOrderIds := by
  unfold DependencyGraph.dependentsOf at h
  obtain ⟨wo, hwo, hx⟩ := List.mem_flatMap.mp h
  rw [List.mem_replicate] at hx
  refine ⟨wo, hwo, hx.2.symm, ?_⟩
  have := hx.1
  rw [← List.count_pos_iff_mem]
  omega

theorem count_dependentsOf (workOrders : List WorkOrder)
    (hnd : (workOrders.map WorkOrder.docId).Nodup) (id d : String) (wo_id : WorkOrder)
    (hfind : workOrders.find? (fun w => w.docId == id) = some wo_id) :
    (DependencyGraph.dependentsOf workOrders d).count id
      = wo_id.data.dependsOnWorkOrderIds.count d := by
  induction workOrders with
  | nil => simp [List.find?] at hfind
  | cons wo rest ih =>
    simp only [List.map_cons, List.nodup_cons] at hnd
    have hdep : DependencyGraph.dependentsOf (wo :: rest) d
        = List.replicate (wo.data.dependsOnWorkOrderIds.count d) wo.docId
          ++ DependencyGraph.dependentsOf rest d := by
      unfold DependencyGraph.dependentsOf
      simp
    rw [hdep, List.count_append]
    by_cases h2 : wo.docId = id
    · have hwo : wo_id = wo := by
        simp only [List.find?] at hfind
        rw [show (wo.docId == id) = true by simpa using h2] at hfind
        injection hfind with hf
        exact hf.symm
      subst hwo
      rw [List.count_replicate]
      rw [show (wo_id.docId == id) = true by simpa using h2]
      have hzero : (DependencyGraph.dependentsOf rest d).count id = 0 := by
        rw [List.count_eq_zero]
        intro hc
        obtain ⟨wo2, hwo2, hid2, -⟩ := mem_dependentsOf hc
        apply hnd.1
        rw [h2, ← hid2]
        exact List.mem_map_of_mem WorkOrder.docId hwo2
      rw [hzero]
      simp
    · simp only [List.find?] at hfind
      rw [show (wo.docId == id) = false by simpa using h2] at hfind
      rw [List.count_replicate]
      rw [show (wo.docId == id) = false by simpa using h2]
      simp only [Bool.false_eq_true, if_false]
      rw [ih hnd.2 hfind]
      omega

theorem pushDependent_foldl_keys (docId : String) :
    ∀ (ds : List String) (m : List (String × DependencyNode)),
      ((ds.foldl (fun m2 depId =>
          if (assocGet m2 depId).isSome then
            assocUpdate depId
              (fun n => { n with dependents := n.dependents ++ [docId] }) m2
          else m2) m)).map Prod.fst = m.map Prod.fst := by
  intro ds
  induction ds with
  | nil => intro m; rfl
  | cons d ds2 ih =>
    intro m
    simp only [List.foldl_cons]
    rw [ih]
    by_cases h : (assocGet m d).isSome = true
    · rw [if_pos h, assocUpdate_keys]
    · rw [if_neg h]

theorem build_foldl_keys :
    ∀ (l : List WorkOrder) (m : List (String × DependencyNode)),
      ((l.foldl (fun m wo =>
          wo.data.dependsOnWorkOrderIds.foldl (fun m2 depId =>
            if (assocGet m2 depId).isSome then
              assocUpdate depId
                (fun n => { n with dependents := n.dependents ++ [wo.docId] }) m2
            else m2) m) m)).map Prod.fst = m.map Prod.fst := by
  intro l
  induction l with
  | nil => intro m; rfl
  | cons wo rest ih =>
    intro m
    simp only [List.foldl_cons]
    rw [ih, pushDependent_foldl_keys]

theorem map_fst_map_docId {α : Type} (f : WorkOrder → α) (l : List WorkOrder) :
    ((l.map fun wo => (wo.docId, f wo)).map Prod.fst) = l.map WorkOrder.docId := by
  induction l with
  | nil => rfl
  | cons wo rest ih => simp [ih]

theorem build_keys (workOrders : List WorkOrder)
    (hnd : (workOrders.map WorkOrder.docId).Nodup) :
    (DependencyGraph.build workOrders).map Prod.fst = workOrders.map WorkOrder.docId := by
  unfold DependencyGraph.build
  rw [build_foldl_keys, buildNodes_eq workOrders hnd, map_fst_map_docId]

theorem build_HDC (workOrders : List WorkOrder)
    (hnd : (workOrders.map WorkOrder.docId).Nodup) :
    ∀ d nd, assocGet (DependencyGraph.build workOrders) d = some nd →
      ∀ id n2, assocGet (DependencyGraph.build workOrders) id = some n2 →
        nd.dependents.count id = n2.dependsOn.count d := by
  intro d nd hd id n2 hid
  rw [build_get workOrders hnd] at hd hid
  cases hfd : workOrders.find? (fun w => w.docId == d) with
  | none => rw [hfd] at hd; simp at hd
  | some wo_d =>
    cases hfi : workOrders.find? (fun w => w.docId == id) with
    | none => rw [hfi] at hid; simp at hid
    | some wo_id =>
      rw [hfd] at hd
      rw [hfi] at hid
      simp only [Option.map_some'] at hd hid
      injection hd with hd2
      injection hid with hid2
      subst hd2
      subst hid2
      exact count_dependentsOf workOrders hnd id d wo_id hfi

theorem build_HDK (workOrders : List WorkOrder)
    (hnd : (workOrders.map WorkOrder.docId).Nodup) :
    ∀ d nd, assocGet (DependencyGraph.build workOrders) d = some nd →
      ∀ x ∈ nd.dependents, (assocGet (DependencyGraph.build workOrders) x).isSome = true := by
  intro d nd hd x hx
  rw [build_get workOrders hnd] at hd
  cases hfd : workOrders.find? (fun w => w.docId == d) with
  | none => rw [hfd] at hd; simp at hd
  | some wo_d =>
    rw [hfd] at hd
    simp only [Option.map_some'] at hd
    injection hd with hd2
    subst hd2
    simp only at hx
    obtain ⟨wo, hwo, hid, -⟩ := mem_dependentsOf hx
    rw [assocGet_isSome_iff, build_keys workOrders hnd, ← hid]
    exact List.mem_map_of_mem WorkOrder.docId hwo

theorem nodeStep_build_iff (workOrders : List WorkOrder)
    (hnd : (workOrders.map WorkOrder.docId).Nodup) (a b : String) :
    DependencyGraph.nodeStep (DependencyGraph.build workOrders) a b ↔
      depStep workOrders a b := by
  constructor
  · rintro ⟨node, hget, hb, hbsome⟩
    rw [build_get workOrders hnd] at hget
    cases hfa : workOrders.find? (fun w => w.docId == a) with
    | none => rw [hfa] at hget; simp at hget
    | some wo_a =>
      rw [hfa] at hget
      simp only [Option.map_some'] at hget
      injection hget with hget2
      subst hget2
      simp only at hb
      constructor
      · refine ⟨wo_a, List.mem_of_find?_eq_some hfa, ?_, hb⟩
        have := List.find?_some hfa
        simpa using this
      · rw [assocGet_isSome_iff, build_keys workOrders hnd] at hbsome
        obtain ⟨wo2, hwo2, hid2⟩ := List.mem_map.mp hbsome
        exact ⟨wo2, hwo2, hid2⟩
  · rintro ⟨⟨wo, hwo, hid, hdep⟩, wo2, hwo2, hid2⟩
    refine ⟨⟨wo.docId, wo.data.dependsOnWorkOrderIds,
      DependencyGraph.dependentsOf workOrders a⟩, ?_, hdep, ?_⟩
    · rw [build_get workOrders hnd]
      subst hid
      rw [find?_docId_eq_some workOrders hnd hwo]
      rfl
    · rw [assocGet_isSome_iff, build_keys workOrders hnd, ← hid2]
      exact List.mem_map_of_mem WorkOrder.docId hwo2

theorem hasDepCycle_iff_nodeCycle (workOrders : List WorkOrder)
    (hnd : (workOrders.map WorkOrder.docId).Nodup) :
    HasDepCycle workOrders ↔
      ∃ a, Relation.TransGen
        (DependencyGraph.nodeStep (DependencyGraph.build workOrders)) a a := by
  constructor
  · rintro ⟨a, ha⟩
    exact ⟨a, Relation.TransGen.mono
      (fun x y hxy => (nodeStep_build_iff workOrders hnd x y).mpr hxy) ha⟩
  · rintro ⟨a, ha⟩
    exact ⟨a, Relation.TransGen.mono
      (fun x y hxy => (nodeStep_build_iff workOrders hnd x y).mp hxy) ha⟩

/-- The engine's cycle check agrees exactly with the existence of a cycle in
the dependency references (for inputs with unique ids). -/
theorem topologicalSort_hasCycle_iff (workOrders : List WorkOrder)
    (hnd : (workOrders.map WorkOrder.docId).Nodup) :
    (DependencyGraph.topologicalSort (DependencyGraph.build workOrders)).hasCycle = true ↔
      HasDepCycle workOrders := by
  have hkeysnd : ((DependencyGraph.build workOrders).map Prod.fst).Nodup := by
    rw [build_keys workOrders hnd]; exact hnd
  constructor
  · intro h
    rw [hasDepCycle_iff_nodeCycle workOrders hnd]
    exact DependencyGraph.cycle_of_topologicalSort _ (build_HDC workOrders hnd)
      (build_HDK workOrders hnd) hkeysnd h
  · intro h
    exact (DependencyGraph.topologicalSort_of_cycle _ (build_HDC workOrders hnd)
      (build_HDK workOrders hnd) hkeysnd
      ((hasDepCycle_iff_nodeCycle workOrders hnd).mp h)).1

/-! ### Claim C3: cycle handling -/

theorem joinArrow_single (x : String) : ReflowService.joinArrow [x] = x := rfl

theorem joinArrow_cons_cons (x y : String) (ys : List String) :
    ReflowService.joinArrow (x :: y :: ys)
      = x ++ " -> " ++ ReflowService.joinArrow (y :: ys) := rfl

theorem joinArrow_substring (l : List String) (id : String) (h : id ∈ l) :
    ∃ pre post, ReflowService.joinArrow l = pre ++ id ++ post := by
  induction l with
  | nil => simp at h
  | cons x xs ih =>
    rcases List.mem_cons.mp h with h1 | h1
    · cases xs with
      | nil =>
        refine ⟨"", "", ?_⟩
        rw [joinArrow_single, h1]
        simp
      | cons y ys =>
        refine ⟨"", " -> " ++ ReflowService.joinArrow (y :: ys), ?_⟩
        rw [joinArrow_cons_cons, h1]
        simp [String.append_assoc]
    · cases xs with
      | nil => simp at h1
      | cons y ys =>
        obtain ⟨pre, post, hpp⟩ := ih h1
        refine ⟨x ++ " -> " ++ pre, post, ?_⟩
        rw [joinArrow_cons_cons, hpp]
        simp [String.append_assoc]

/-- C3.  For every input (with unique order ids, as the data model requires)
whose dependency references restricted to known ids contain a cycle,
`reflow` returns the input work orders unchanged, an empty change list, and
an explanation string containing every order id left unresolved by the
topological sort; every id involved in a cycle is among the unresolved ids,
hence in the explanation. -/
theorem reflow_cycle_handling (input : ReflowInput)
    (hnd : (input.workOrders.map WorkOrder.docId).Nodup)
    (hcyc : HasDepCycle input.workOrders) :
    (ReflowService.reflow input).updatedWorkOrders = input.workOrders ∧
    (ReflowService.reflow input).changes = [] ∧
    (∀ id, id ∈ (DependencyGraph.topologicalSort
        (DependencyGraph.build input.workOrders)).cycleNodes.getD [] →
      ∃ pre post, (ReflowService.reflow input).explanation = pre ++ id ++ post) ∧
    (∀ a, Relation.TransGen (depStep input.workOrders) a a →
      a ∈ (DependencyGraph.topologicalSort
        (DependencyGraph.build input.workOrders)).cycleNodes.getD []) := by
  have hhc : (DependencyGraph.topologicalSort
      (DependencyGraph.build input.workOrders)).hasCycle = true :=
    (topologicalSort_hasCycle_iff input.workOrders hnd).mpr hcyc
  have hkeysnd : ((DependencyGraph.build input.workOrders).map Prod.fst).Nodup := by
    rw [build_keys input.workOrders hnd]; exact hnd
  have hcontains := (DependencyGraph.topologicalSort_of_cycle _
    (build_HDC input.workOrders hnd) (build_HDK input.workOrders hnd) hkeysnd
    ((hasDepCycle_iff_nodeCycle input.workOrders hnd).mp hcyc)).2
  have hr : ReflowService.reflow input =
      { updatedWorkOrders := input.workOrders.map ReflowService.cloneWorkOrder
        changes := []
        explanation := "Cycle detected in dependencies: "
          ++ ReflowService.joinArrow ((DependencyGraph.topologicalSort
              (DependencyGraph.build input.workOrders)).cycleNodes.getD [])
        metrics := ReflowService.emptyMetrics } := by
    unfold ReflowService.reflow
    rw [if_pos hhc]
  refine ⟨?_, ?_, ?_, ?_⟩
  · rw [hr]
    show input.workOrders.map (fun wo => (⟨wo.docId, wo.data⟩ : WorkOrder))
      = input.workOrders
    simp
  · rw [hr]
  · intro id hid
    obtain ⟨pre, post, hpp⟩ := joinArrow_substring _ id hid
    refine ⟨"Cycle detected in dependencies: " ++ pre, post, ?_⟩
    rw [hr]
    show "Cycle detected in dependencies: "
        ++ ReflowService.joinArrow ((DependencyGraph.topologicalSort
            (DependencyGraph.build input.workOrders)).cycleNodes.getD [])
      = "Cycle detected in dependencies: " ++ pre ++ id ++ post
    rw [hpp]
    simp [String.append_assoc]
  · intro a ha
    exact hcontains a (Relation.TransGen.mono
      (fun x y hxy => (nodeStep_build_iff input.workOrders hnd x y).mpr hxy) ha)

/-- Witness for C3 at a concrete two-cycle. -/
theorem reflow_cycle_handling_witness :
    (ReflowService.reflow exCyc).updatedWorkOrders = exCyc.workOrders ∧
    (ReflowService.reflow exCyc).changes = [] ∧
    ∃ pre post, (ReflowService.reflow exCyc).explanation = pre ++ "CA" ++ post := by
  have hstep1 : depStep exCyc.workOrders "CA" "CB" := by
    refine ⟨⟨exCycA, by decide, rfl, by decide⟩, ⟨exCycB, by decide, rfl⟩⟩
  have hstep2 : depStep exCyc.workOrders "CB" "CA" := by
    refine ⟨⟨exCycB, by decide, rfl, by decide⟩, ⟨exCycA, by decide, rfl⟩⟩
  have hcyc : HasDepCycle exCyc.workOrders :=
    ⟨"CA", Relation.TransGen.head hstep1 (Relation.TransGen.single hstep2)⟩
  have h := reflow_cycle_handling exCyc (by decide) hcyc
  refine ⟨h.1, h.2.1, h.2.2.1 "CA" ?_⟩
  decide

/-! ### Claim C8: metrics aggregation -/

theorem le_foldl_max (acc : Int) (ds : List Int) : acc ≤ ds.foldl max acc := by
  induction ds generalizing acc with
  | nil => exact le_refl acc
  | cons e es ih => exact le_trans (le_max_left acc e) (ih (max acc e))

theorem foldl_max_mem (acc : Int) (ds : List Int) : ds.foldl max acc ∈ acc :: ds := by
  induction ds generalizing acc with
  | nil => simp
  | cons e es ih =>
    have hmem := ih (max acc e)
    rcases List.mem_cons.mp hmem with h1 | h1
    · rw [List.foldl_cons, h1]
      rcases max_choice acc e with h2 | h2 <;> rw [h2] <;> simp
    · rw [List.foldl_cons]
      exact List.mem_cons_of_mem _ (List.mem_cons_of_mem _ h1)

theorem foldl_max_ub (acc : Int) (ds : List Int) (x : Int) (hx : x ∈ acc :: ds) :
    x ≤ ds.foldl max acc := by
  induction ds generalizing acc with
  | nil =>
    simp at hx
    subst hx
    exact le_refl x
  | cons e es ih =>
    rcases List.mem_cons.mp hx with h1 | h1
    · subst h1
      exact le_trans (le_max_left x e) (le_foldl_max _ es)
    · rcases List.mem_cons.mp h1 with h2 | h2
      · subst h2
        exact le_trans (le_max_right acc x) (le_foldl_max _ es)
      · exact ih (max acc e) (List.mem_cons_of_mem _ h2)

theorem listMax_mem (d : Int) (ds : List Int) :
    ReflowService.listMax (d :: ds) ∈ d :: ds :=
  foldl_max_mem d ds

theorem listMax_ub (d : Int) (ds : List Int) (x : Int) (hx : x ∈ d :: ds) :
    x ≤ ReflowService.listMax (d :: ds) :=
  foldl_max_ub d ds x hx

/-- Spec-level characterization of `calculateMetrics`: total is the sum over
the strictly positive delays, max is the maximum of that subset (0 if it is
empty), rescheduled is the change count, unchanged is the non-maintenance
count minus the change count. -/
theorem calculateMetrics_spec (originalWorkOrders updatedWorkOrders : List WorkOrder)
    (changes : List ReflowChange) (workCenters : List WorkCenter)
    (workCenterSlots : List (String × List ScheduledSlot)) :
    (ReflowService.calculateMetrics originalWorkOrders updatedWorkOrders changes
        workCenters workCenterSlots).totalDelayMinutes
      = ((changes.map (fun c => c.delayMinutes)).filter (fun d => decide (0 < d))).sum ∧
    (((changes.map (fun c => c.delayMinutes)).filter (fun d => decide (0 < d))) = [] →
      (ReflowService.calculateMetrics originalWorkOrders updatedWorkOrders changes
        workCenters workCenterSlots).maxDelayMinutes = 0) ∧
    (∀ d0 ds, ((changes.map (fun c => c.delayMinutes)).filter (fun d => decide (0 < d)))
        = d0 :: ds →
      (ReflowService.calculateMetrics originalWorkOrders updatedWorkOrders changes
        workCenters workCenterSlots).maxDelayMinutes ∈ d0 :: ds ∧
      ∀ d ∈ d0 :: ds, d ≤ (ReflowService.calculateMetrics originalWorkOrders
        updatedWorkOrders changes workCenters workCenterSlots).maxDelayMinutes) ∧
    (ReflowService.calculateMetrics originalWorkOrders updatedWorkOrders changes
        workCenters workCenterSlots).workOrdersRescheduled = changes.length ∧
    (ReflowService.calculateMetrics originalWorkOrders updatedWorkOrders changes
        workCenters workCenterSlots).workOrdersUnchanged
      = ((originalWorkOrders.filter
          (fun wo => wo.data.isMaintenance = false)).length : Int)
        - (changes.length : Int) := by
  unfold ReflowService.calculateMetrics
  refine ⟨?_, ?_, ?_, rfl, ?_⟩
  · show ((changes.map (fun c => c.delayMinutes)).filter
        (fun d => decide (d > 0))).foldl (· + ·) 0 = _
    rw [List.sum_eq_foldl]
  · intro hnil
    show (if ((changes.map (fun c => c.delayMinutes)).filter
        (fun d => decide (d > 0))).length > 0 then _ else 0) = 0
    rw [show ((changes.map (fun c => c.delayMinutes)).filter
        (fun d => decide (d > 0))) = [] from hnil]
    rfl
  · intro d0 ds hcons
    have hcons2 : ((changes.map (fun c => c.delayMinutes)).filter
        (fun d => decide (d > 0))) = d0 :: ds := hcons
    constructor
    · show (if ((changes.map (fun c => c.delayMinutes)).filter
          (fun d => decide (d > 0))).length > 0 then
            ReflowService.listMax ((changes.map (fun c => c.delayMinutes)).filter
              (fun d => decide (d > 0)))
          else 0) ∈ d0 :: ds
      rw [hcons2]
      simp only [List.length_cons]
      rw [if_pos (by omega)]
      exact listMax_mem d0 ds
    · intro d hd
      show d ≤ (if ((changes.map (fun c => c.delayMinutes)).filter
          (fun d => decide (d > 0))).length > 0 then
            ReflowService.listMax ((changes.map (fun c => c.delayMinutes)).filter
              (fun d => decide (d > 0)))
          else 0)
      rw [hcons2]
      simp only [List.length_cons]
      rw [if_pos (by omega)]
      exact listMax_ub d0 ds d hd
  · have hfe : (originalWorkOrders.filter (fun wo => !wo.data.isMaintenance))
        = (originalWorkOrders.filter (fun wo => decide (wo.data.isMaintenance = false))) := by
      apply List.filter_congr
      intro wo _
      cases wo.data.isMaintenance <;> simp
    show (((originalWorkOrders.filter (fun wo => !wo.data.isMaintenance)).length : Int)
        - (changes.length : Int)) = _
    rw [hfe]

/-- On cycle-free inputs `reflow` takes its scheduling branch. -/
theorem reflow_no_cycle_eq (input : ReflowInput)
    (h : (DependencyGraph.topologicalSort
      (DependencyGraph.build input.workOrders)).hasCycle = false) :
    ReflowService.reflow input =
      (let nodes := DependencyGraph.build input.workOrders
       let sortedOrders := ReflowService.sortByPriority input.workOrders
       let workCenterMap := buildWorkCenterMap input.workCenters
       let st2 := sortedOrders.foldl (ReflowService.scheduleWorkOrder nodes workCenterMap)
         (ReflowService.scheduleMaintenanceOrders input.workOrders ⟨[], [], []⟩)
       let updatedWorkOrders :=
         input.workOrders.map (fun wo => (assocGet st2.updatedMap wo.docId).getD wo)
       { updatedWorkOrders
         changes := st2.changes
         explanation := ReflowService.buildExplanation st2.changes
         metrics := ReflowService.calculateMetrics input.workOrders updatedWorkOrders
           st2.changes input.workCenters st2.workCenterSlots }) := by
  unfold ReflowService.reflow
  rw [if_neg (by rw [h]; exact Bool.false_ne_true)]

/-- C8.  For every acyclic input with unique order ids, in the metrics
returned by `reflow`: `totalDelayMinutes` is the sum of the strictly
positive `delayMinutes` over the change list, `maxDelayMinutes` is the
maximum over that same positive subset (0 if it is empty),
`workOrdersRescheduled` is the number of change records, and
`workOrdersUnchanged` is the number of non-maintenance input orders minus
the number of change records. -/
theorem reflow_metrics (input : ReflowInput)
    (hnd : (input.workOrders.map WorkOrder.docId).Nodup)
    (hacyc : ¬ HasDepCycle input.workOrders) :
    (ReflowService.reflow input).metrics.totalDelayMinutes
      = (((ReflowService.reflow input).changes.map (fun c => c.delayMinutes)).filter
          (fun d => decide (0 < d))).sum ∧
    ((((ReflowService.reflow input).changes.map (fun c => c.delayMinutes)).filter
        (fun d => decide (0 < d))) = [] →
      (ReflowService.reflow input).metrics.maxDelayMinutes = 0) ∧
    (∀ d0 ds, (((ReflowService.reflow input).changes.map (fun c => c.delayMinutes)).filter
        (fun d => decide (0 < d))) = d0 :: ds →
      (ReflowService.reflow input).metrics.maxDelayMinutes ∈ d0 :: ds ∧
      ∀ d ∈ d0 :: ds, d ≤ (ReflowService.reflow input).metrics.maxDelayMinutes) ∧
    (ReflowService.reflow input).metrics.workOrdersRescheduled
      = ((ReflowService.reflow input).changes.length : Int) ∧
    (ReflowService.reflow input).metrics.workOrdersUnchanged
      = ((input.workOrders.filter
          (fun wo => wo.data.isMaintenance = false)).length : Int)
        - ((ReflowService.reflow input).changes.length : Int) := by
  have hhc : (DependencyGraph.topologicalSort
      (DependencyGraph.build input.workOrders)).hasCycle = false := by
    cases hb : (DependencyGraph.topologicalSort
        (DependencyGraph.build input.workOrders)).hasCycle
    · rfl
    · exact absurd ((topologicalSort_hasCycle_iff input.workOrders hnd).mp hb) hacyc
  rw [reflow_no_cycle_eq input hhc]
  exact calculateMetrics_spec input.workOrders _ _ input.workCenters _

/-- Witness for C8 at the concrete acyclic input `exC1`. -/
theorem reflow_metrics_witness :
    (ReflowService.reflow exC1).metrics.totalDelayMinutes
      = (((ReflowService.reflow exC1).changes.map (fun c => c.delayMinutes)).filter
          (fun d => decide (0 < d))).sum ∧
    (ReflowService.reflow exC1).metrics.workOrdersRescheduled
      = ((ReflowService.reflow exC1).changes.length : Int) ∧
    (ReflowService.reflow exC1).metrics.workOrdersUnchanged
      = ((exC1.workOrders.filter
          (fun wo => wo.data.isMaintenance = false)).length : Int)
        - ((ReflowService.reflow exC1).changes.length : Int) := by
  have h := reflow_metrics exC1 (by decide)
    (not_hasDepCycle_of_rank _ (fun id => if id = "B" then 0 else 1) (by decide))
  exact ⟨h.1, h.2.2.2.1, h.2.2.2.2⟩

/-! ### Monotonicity of the calendar-alignment functions -/

theorem getMaintenanceWindowEnd_lt (date : Int) (windows : List MaintenanceWindow)
    (e : Int) (h : getMaintenanceWindowEnd date windows = some e) : date < e := by
  induction windows with
  | nil => simp [getMaintenanceWindowEnd] at h
  | cons w ws ih =>
    unfold getMaintenanceWindowEnd at h
    by_cases hc : w.startDate ≤ date ∧ date < w.endDate
    · rw [if_pos hc] at h
      cases h
      exact hc.2
    · rw [if_neg hc] at h
      exact ih h

theorem getNextShiftStartAux_ge (shifts : List Shift) (orig : Int) (fuel : Nat) :
    ∀ current, orig ≤ current → orig ≤ getNextShiftStartAux shifts orig fuel current := by
  induction fuel with
  | zero => intro current _; exact le_refl orig
  | succ n ih =>
    intro current hc
    unfold getNextShiftStartAux
    cases hs : getShiftForDay (dayOfWeek current) shifts with
    | none =>
      exact ih (dayStartOf current + 1440)
        (le_trans hc (le_of_lt (lt_dayStartOf_add current)))
    | some shift =>
      dsimp only
      by_cases h1 : current < dayStartOf current + shift.startHour * 60
      · rw [if_pos h1]
        exact le_trans hc (le_of_lt h1)
      · rw [if_neg h1]
        by_cases h2 : dayStartOf current + shift.startHour * 60 ≤ current ∧
            current < dayStartOf current + shift.endHour * 60
        · rw [if_pos h2]
          exact hc
        · rw [if_neg h2]
          exact ih (dayStartOf current + 1440)
            (le_trans hc (le_of_lt (lt_dayStartOf_add current)))

theorem getNextShiftStart_ge (date : Int) (shifts : List Shift) :
    date ≤ getNextShiftStart date shifts :=
  getNextShiftStartAux_ge shifts date 14 date (le_refl date)

theorem getNextAvailableTimeAux_ge (shifts : List Shift)
    (windows : List MaintenanceWindow) (orig : Int) (fuel : Nat) :
    ∀ current, orig ≤ current →
      orig ≤ getNextAvailableTimeAux shifts windows orig fuel current := by
  induction fuel with
  | zero => intro current _; exact le_refl orig
  | succ n ih =>
    intro current hc
    unfold getNextAvailableTimeAux
    have haligned : orig ≤ (if shifts.length > 0 then getNextShiftStart current shifts
        else current) := by
      by_cases h : shifts.length > 0
      · rw [if_pos h]
        exact le_trans hc (getNextShiftStartAux_ge shifts current 14 current (le_refl _))
      · rw [if_neg h]
        exact hc
    cases hm : getMaintenanceWindowEnd
        (if shifts.length > 0 then getNextShiftStart current shifts else current)
        windows with
    | none =>
      simp only [hm]
      exact haligned
    | some e =>
      simp only [hm]
      exact ih e (le_trans haligned (le_of_lt (getMaintenanceWindowEnd_lt _ windows e hm)))

theorem getNextAvailableTime_ge (date : Int) (shifts : List Shift)
    (windows : List MaintenanceWindow) : date ≤ getNextAvailableTime date shifts windows :=
  getNextAvailableTimeAux_ge shifts windows date 1000 date (le_refl date)

theorem calcEndLoop_ge (shifts : List Shift) (windows : List MaintenanceWindow)
    (fuel : Nat) : ∀ current remaining,
      current ≤ calcEndLoop shifts windows fuel current remaining := by
  induction fuel with
  | zero => intro current remaining; exact le_refl current
  | succ n ih =>
    intro current remaining
    unfold calcEndLoop
    by_cases h0 : remaining ≤ 0
    · rw [if_pos h0]
    · rw [if_neg h0]
      dsimp only
      by_cases h1 : getAvailableMinutes current shifts windows ≤ 0
      · rw [if_pos h1]
        refine le_trans ?_ (ih (getNextAvailableTime (current + 1) shifts windows) remaining)
        exact le_trans (by omega) (getNextAvailableTime_ge (current + 1) shifts windows)
      · rw [if_neg h1]
        by_cases h2 : remaining ≤ getAvailableMinutes current shifts windows
        · rw [if_pos h2]
          omega
        · rw [if_neg h2]
          refine le_trans ?_ (ih (getNextAvailableTime
            (current + getAvailableMinutes current shifts windows) shifts windows)
            (remaining - getAvailableMinutes current shifts windows))
          exact le_trans (by omega) (getNextAvailableTime_ge
            (current + getAvailableMinutes current shifts windows) shifts windows)

theorem calculateEnd_ge (startDate workingMinutes : Int) (shifts : List Shift)
    (windows : List MaintenanceWindow) :
    startDate ≤ calculateEndDateWithShiftsAndMaintenance startDate workingMinutes
      shifts windows := by
  unfold calculateEndDateWithShiftsAndMaintenance
  by_cases h0 : workingMinutes ≤ 0
  · rw [if_pos h0]
  · rw [if_neg h0]
    by_cases h1 : shifts.length = 0 ∧ windows.length = 0
    · rw [if_pos h1]
      unfold calculateEndDate
      omega
    · rw [if_neg h1]
      exact le_trans (getNextAvailableTime_ge startDate shifts windows)
        (calcEndLoop_ge shifts windows 10000 _ workingMinutes)

/-! ### The conflict push-forward loop of `findAvailableSlot` -/

theorem countP_lt_of_mem {α : Type} (q r : α → Bool) (l : List α) (x : α)
    (hx : x ∈ l) (hrx : r x = true) (hqx : q x = false)
    (himp : ∀ y, q y = true → r y = true) :
    l.countP q < l.countP r := by
  induction l with
  | nil => simp at hx
  | cons y t ih =>
    rw [List.countP_cons, List.countP_cons]
    rcases List.mem_cons.mp hx with h1 | h1
    · subst h1
      rw [hrx, hqx]
      have hle : t.countP q ≤ t.countP r :=
        List.countP_mono_left (fun a _ ha => himp a ha)
      simp
      omega
    · have hlt := ih h1
      cases hqy : q y with
      | false =>
        cases hry : r y with
        | false =>
          simp
          omega
        | true =>
          simp
          omega
      | true =>
        have hry := himp y hqy
        rw [hry]
        simp
        omega

theorem findSlotLoop_start_ge (shifts : List Shift) (windows : List MaintenanceWindow)
    (slots : List ScheduledSlot) (totalMinutes : Int) (fuel : Nat) :
    ∀ p, p ≤ (ReflowService.findSlotLoop shifts windows slots totalMinutes fuel p).1 := by
  induction fuel with
  | zero => intro p; exact le_refl p
  | succ n ih =>
    intro p
    unfold ReflowService.findSlotLoop
    cases hfind : slots.find? (fun slot => overlaps p
        (calculateEndDateWithShiftsAndMaintenance p totalMinutes shifts windows)
        slot.start slot.endTime) with
    | none =>
      simp only [hfind]
      exact le_refl p
    | some cslot =>
      simp only [hfind]
      have hov := List.find?_some hfind
      have hplt : p < cslot.endTime := by
        have h1 : overlaps p
            (calculateEndDateWithShiftsAndMaintenance p totalMinutes shifts windows)
            cslot.start cslot.endTime = true := hov
        unfold overlaps at h1
        rw [Bool.and_eq_true, decide_eq_true_iff, decide_eq_true_iff] at h1
        exact h1.1
      refine le_trans ?_ (ih (getNextAvailableTime cslot.endTime shifts windows))
      exact le_trans (le_of_lt hplt) (getNextAvailableTime_ge cslot.endTime shifts windows)

theorem findSlotLoop_end_eq (shifts : List Shift) (windows : List MaintenanceWindow)
    (slots : List ScheduledSlot) (totalMinutes : Int) (fuel : Nat) :
    ∀ p, (ReflowService.findSlotLoop shifts windows slots totalMinutes fuel p).2
      = calculateEndDateWithShiftsAndMaintenance
          (ReflowService.findSlotLoop shifts windows slots totalMinutes fuel p).1
          totalMinutes shifts windows := by
  induction fuel with
  | zero => intro p; rfl
  | succ n ih =>
    intro p
    unfold ReflowService.findSlotLoop
    cases hfind : slots.find? (fun slot => overlaps p
        (calculateEndDateWithShiftsAndMaintenance p totalMinutes shifts windows)
        slot.start slot.endTime) with
    | none => simp only [hfind]
    | some cslot =>
      simp only [hfind]
      exact ih (getNextAvailableTime cslot.endTime shifts windows)

theorem findSlotLoop_no_conflict (shifts : List Shift) (windows : List MaintenanceWindow)
    (slots : List ScheduledSlot) (totalMinutes : Int) (fuel : Nat) :
    ∀ p, slots.countP (fun sl => decide (p < sl.endTime)) < fuel →
      ∀ slot ∈ slots,
        overlaps (ReflowService.findSlotLoop shifts windows slots totalMinutes fuel p).1
          (ReflowService.findSlotLoop shifts windows slots totalMinutes fuel p).2
          slot.start slot.endTime = false := by
  induction fuel with
  | zero => intro p hp; omega
  | succ n ih =>
    intro p hp slot hslot
    unfold ReflowService.findSlotLoop
    cases hfind : slots.find? (fun slot => overlaps p
        (calculateEndDateWithShiftsAndMaintenance p totalMinutes shifts windows)
        slot.start slot.endTime) with
    | none =>
      simp only [hfind]
      have hnone := List.find?_eq_none.mp hfind slot hslot
      exact Bool.eq_false_iff.mpr hnone
    | some cslot =>
      simp only [hfind]
      have hov := List.find?_some hfind
      have hcm := List.mem_of_find?_eq_some hfind
      have hplt : p < cslot.endTime := by
        have h1 : overlaps p
            (calculateEndDateWithShiftsAndMaintenance p totalMinutes shifts windows)
            cslot.start cslot.endTime = true := hov
        unfold overlaps at h1
        rw [Bool.and_eq_true, decide_eq_true_iff, decide_eq_true_iff] at h1
        exact h1.1
      have hge : cslot.endTime ≤ getNextAvailableTime cslot.endTime shifts windows :=
        getNextAvailableTime_ge cslot.endTime shifts windows
      have hdec : slots.countP (fun sl =>
            decide (getNextAvailableTime cslot.endTime shifts windows < sl.endTime))
          < slots.countP (fun sl => decide (p < sl.endTime)) := by
        refine countP_lt_of_mem _ _ slots cslot hcm (decide_eq_true hplt) ?_ ?_
        · rw [decide_eq_false_iff_not]
          omega
        · intro y hy
          rw [decide_eq_true_iff] at hy
          rw [decide_eq_true_iff]
          omega
      exact ih (getNextAvailableTime cslot.endTime shifts windows) (by omega) slot hslot

/-- The three facts `findAvailableSlot` guarantees: the chosen start is at or
after the requested start, the chosen end is the shift-and-maintenance end
computed from the chosen start, and the chosen interval overlaps no occupied
slot of the work center. -/
theorem findAvailableSlot_spec (start totalMinutes : Int) (slots : List ScheduledSlot)
    (shifts : List Shift) (windows : List MaintenanceWindow) :
    start ≤ (ReflowService.findAvailableSlot start totalMinutes slots shifts windows).1 ∧
    (ReflowService.findAvailableSlot start totalMinutes slots shifts windows).2
      = calculateEndDateWithShiftsAndMaintenance
          (ReflowService.findAvailableSlot start totalMinutes slots shifts windows).1
          totalMinutes shifts windows ∧
    ∀ slot ∈ slots,
      overlaps (ReflowService.findAvailableSlot start totalMinutes slots shifts windows).1
        (ReflowService.findAvailableSlot start totalMinutes slots shifts windows).2
        slot.start slot.endTime = false := by
  refine ⟨findSlotLoop_start_ge shifts windows slots totalMinutes _ start,
    findSlotLoop_end_eq shifts windows slots totalMinutes _ start,
    findSlotLoop_no_conflict shifts windows slots totalMinutes _ start ?_⟩
  have := List.countP_le_length (l := slots) (p := fun sl => decide (start < sl.endTime))
  omega

/-! ### Bounds of `findEarliestStart` and the placement step -/

theorem depFold_ge_init (m : List (String × WorkOrder)) (l : List String) :
    ∀ init : Int, init ≤ l.foldl (fun earliest depId =>
      match assocGet m depId with
      | some depWo => if depWo.data.endDate > earliest then depWo.data.endDate else earliest
      | none => earliest) init := by
  induction l with
  | nil => intro init; exact le_refl init
  | cons d t ih =>
    intro init
    rw [List.foldl_cons]
    refine le_trans ?_ (ih _)
    cases hd : assocGet m d with
    | none => simp only [hd]; exact le_refl init
    | some w =>
      simp only [hd]
      by_cases h : w.data.endDate > init
      · rw [if_pos h]
        exact le_of_lt h
      · rw [if_neg h]

theorem depFold_ge_dep (m : List (String × WorkOrder)) (l : List String) :
    ∀ init : Int, ∀ d ∈ l, ∀ w, assocGet m d = some w →
      w.data.endDate ≤ l.foldl (fun earliest depId =>
        match assocGet m depId with
        | some depWo =>
          if depWo.data.endDate > earliest then depWo.data.endDate else earliest
        | none => earliest) init := by
  induction l with
  | nil => intro init d hd; simp at hd
  | cons d0 t ih =>
    intro init d hd w hw
    rw [List.foldl_cons]
    rcases List.mem_cons.mp hd with h1 | h1
    · subst h1
      refine le_trans ?_ (depFold_ge_init m t _)
      simp only [hw]
      by_cases h : w.data.endDate > init
      · rw [if_pos h]
      · rw [if_neg h]
        omega
    · exact ih _ d h1 w hw

theorem findEarliestStart_ge_start (nodes : List (String × DependencyNode))
    (wo : WorkOrder) (m : List (String × WorkOrder)) (shifts : List Shift)
    (windows : List MaintenanceWindow) :
    wo.data.startDate ≤ ReflowService.findEarliestStart nodes wo m shifts windows := by
  unfold ReflowService.findEarliestStart
  exact le_trans (depFold_ge_init m _ _) (getNextAvailableTime_ge _ _ _)

theorem findEarliestStart_ge_dep (nodes : List (String × DependencyNode))
    (wo : WorkOrder) (m : List (String × WorkOrder)) (shifts : List Shift)
    (windows : List MaintenanceWindow) (depId : String)
    (hdep : depId ∈ DependencyGraph.getDependencies nodes wo.docId) (dw : WorkOrder)
    (hw : assocGet m depId = some dw) :
    dw.data.endDate ≤ ReflowService.findEarliestStart nodes wo m shifts windows := by
  unfold ReflowService.findEarliestStart
  exact le_trans (depFold_ge_dep m _ _ depId hdep dw hw) (getNextAvailableTime_ge _ _ _)

theorem recordChange_cases (nodes : List (String × DependencyNode))
    (original updated : WorkOrder) (newStart : Int) (m : List (String × WorkOrder))
    (changes : List ReflowChange) :
    ReflowService.recordChange nodes original updated newStart m changes = changes ∨
      ∃ c, ReflowService.recordChange nodes original updated newStart m changes
          = changes ++ [c] ∧ c.workOrderId = original.docId := by
  unfold ReflowService.recordChange
  by_cases hc : original.data.startDate = updated.data.startDate ∧
      original.data.endDate = updated.data.endDate
  · rw [if_pos hc]
    exact Or.inl rfl
  · rw [if_neg hc]
    exact Or.inr ⟨_, rfl, rfl⟩

/-- Everything one placement step guarantees: the updated map gains exactly
the rescheduled order, its slot is appended to its work center, at most one
change record (for this order) is appended, the new start is at or after the
original start and after every already-recorded dependency end, and the new
interval conflicts with no already-occupied slot of its work center. -/
theorem scheduleWorkOrder_step (nodes : List (String × DependencyNode))
    (wcMap : List (String × WorkCenter)) (st : ReflowService.ReflowState)
    (wo : WorkOrder) :
    ∃ s e,
      (ReflowService.scheduleWorkOrder nodes wcMap st wo).updatedMap
        = assocSet wo.docId ⟨wo.docId, { wo.data with startDate := s, endDate := e }⟩
            st.updatedMap ∧
      (ReflowService.scheduleWorkOrder nodes wcMap st wo).workCenterSlots
        = ReflowService.addSlot st.workCenterSlots wo.data.workCenterId
            ⟨wo.docId, s, e⟩ ∧
      ((ReflowService.scheduleWorkOrder nodes wcMap st wo).changes = st.changes ∨
        ∃ c, (ReflowService.scheduleWorkOrder nodes wcMap st wo).changes
            = st.changes ++ [c] ∧ c.workOrderId = wo.docId) ∧
      wo.data.startDate ≤ s ∧
      (∀ depId ∈ DependencyGraph.getDependencies nodes wo.docId, ∀ dw,
        assocGet st.updatedMap depId = some dw → dw.data.endDate ≤ s) ∧
      (∀ slot ∈ (assocGet st.workCenterSlots wo.data.workCenterId).getD [],
        overlaps s e slot.start slot.endTime = false) := by
  obtain ⟨hge, hend, hnoc⟩ := findAvailableSlot_spec
    (ReflowService.findEarliestStart nodes wo st.updatedMap
      (((assocGet wcMap wo.data.workCenterId).map (fun wc => wc.data.shifts)).getD [])
      (((assocGet wcMap wo.data.workCenterId).map
        (fun wc => wc.data.maintenanceWindows)).getD []))
    (wo.data.durationMinutes + wo.data.setupTimeMinutes.getD 0)
    ((assocGet st.workCenterSlots wo.data.workCenterId).getD [])
    (((assocGet wcMap wo.data.workCenterId).map (fun wc => wc.data.shifts)).getD [])
    (((assocGet wcMap wo.data.workCenterId).map
      (fun wc => wc.data.maintenanceWindows)).getD [])
  refine ⟨_, _, rfl, rfl, ?_, ?_, ?_, ?_⟩
  · exact recordChange_cases nodes wo _ _ _ st.changes
  · exact le_trans (findEarliestStart_ge_start nodes wo st.updatedMap _ _) hge
  · intro depId hdep dw hdw
    exact le_trans (findEarliestStart_ge_dep nodes wo st.updatedMap _ _ depId hdep dw hdw)
      hge
  · intro slot hslot
    exact hnoc slot hslot

/-! ### Invariants of the scheduling folds -/

theorem cloneWorkOrder_eq (wo : WorkOrder) : ReflowService.cloneWorkOrder wo = wo := rfl

theorem assocGet_set_cases {α : Type} (k0 : String) (v : α) (m : List (String × α))
    (k : String) (u : α) (h : assocGet (assocSet k0 v m) k = some u) :
    (k = k0 ∧ u = v) ∨ (k ≠ k0 ∧ assocGet m k = some u) := by
  by_cases hk : k = k0
  · subst hk
    rw [assocGet_set_self] at h
    exact Or.inl ⟨rfl, (Option.some.injEq _ _).mp h.symm⟩
  · rw [assocGet_set_ne _ _ hk] at h
    exact Or.inr ⟨hk, h⟩

theorem addSlot_get (slots : List (String × List ScheduledSlot)) (k : String)
    (s : ScheduledSlot) (k' : String) :
    (assocGet (ReflowService.addSlot slots k s) k').getD []
      = if k' = k then (assocGet slots k).getD [] ++ [s]
        else (assocGet slots k').getD [] := by
  unfold ReflowService.addSlot
  by_cases h : k' = k
  · subst h
    rw [if_pos rfl, assocGet_set_self]
    rfl
  · rw [if_neg h, assocGet_set_ne _ _ h]

theorem schedule_foldl_frame (nodes : List (String × DependencyNode))
    (wcMap : List (String × WorkCenter)) (l : List WorkOrder) :
    ∀ st k, k ∉ l.map WorkOrder.docId →
      assocGet (l.foldl (ReflowService.scheduleWorkOrder nodes wcMap) st).updatedMap k
        = assocGet st.updatedMap k := by
  induction l with
  | nil => intro st k _; rfl
  | cons wo t ih =>
    intro st k hk
    simp only [List.map_cons, List.mem_cons, not_or] at hk
    rw [List.foldl_cons, ih _ k hk.2]
    obtain ⟨s, e, hm, _, _, _, _, _⟩ := scheduleWorkOrder_step nodes wcMap st wo
    rw [hm, assocGet_set_ne _ _ hk.1]

theorem schedule_foldl_slot_mono (nodes : List (String × DependencyNode))
    (wcMap : List (String × WorkCenter)) (l : List WorkOrder) :
    ∀ st wc slot, slot ∈ (assocGet st.workCenterSlots wc).getD [] →
      slot ∈ (assocGet
        (l.foldl (ReflowService.scheduleWorkOrder nodes wcMap) st).workCenterSlots
        wc).getD [] := by
  induction l with
  | nil => intro st wc slot h; exact h
  | cons wo t ih =>
    intro st wc slot h
    rw [List.foldl_cons]
    refine ih _ wc slot ?_
    obtain ⟨s, e, _, hs, _, _, _, _⟩ := scheduleWorkOrder_step nodes wcMap st wo
    rw [hs, addSlot_get]
    by_cases hwc : wc = wo.data.workCenterId
    · subst hwc
      rw [if_pos rfl]
      exact List.mem_append_left _ h
    · rw [if_neg hwc]
      exact h

theorem schedMaint_step_eq (st : ReflowService.ReflowState) (wo : WorkOrder)
    (hm : wo.data.isMaintenance = true) :
    (ReflowService.scheduleMaintenanceOrders [wo] st)
      = { st with
          updatedMap := assocSet wo.docId wo st.updatedMap
          workCenterSlots := ReflowService.addSlot st.workCenterSlots
            wo.data.workCenterId ⟨wo.docId, wo.data.startDate, wo.data.endDate⟩ } := by
  unfold ReflowService.scheduleMaintenanceOrders
  rw [List.foldl_cons, List.foldl_nil, if_pos hm, cloneWorkOrder_eq]

theorem schedMaint_cons (wo : WorkOrder) (t : List WorkOrder)
    (st : ReflowService.ReflowState) :
    ReflowService.scheduleMaintenanceOrders (wo :: t) st
      = ReflowService.scheduleMaintenanceOrders t
          (ReflowService.scheduleMaintenanceOrders [wo] st) := by
  unfold ReflowService.scheduleMaintenanceOrders
  rw [List.foldl_cons, List.foldl_cons, List.foldl_nil]

theorem schedMaint_step_not (st : ReflowService.ReflowState) (wo : WorkOrder)
    (hm : wo.data.isMaintenance = false) :
    ReflowService.scheduleMaintenanceOrders [wo] st = st := by
  unfold ReflowService.scheduleMaintenanceOrders
  rw [List.foldl_cons, List.foldl_nil, if_neg (by rw [hm]; exact Bool.false_ne_true)]

theorem schedMaint_changes (l : List WorkOrder) :
    ∀ st, (ReflowService.scheduleMaintenanceOrders l st).changes = st.changes := by
  induction l with
  | nil => intro st; rfl
  | cons wo t ih =>
    intro st
    rw [schedMaint_cons, ih]
    cases hm : wo.data.isMaintenance with
    | false => rw [schedMaint_step_not st wo hm]
    | true => rw [schedMaint_step_eq st wo hm]

theorem schedMaint_frame (l : List WorkOrder) :
    ∀ st k, (∀ wo ∈ l, wo.data.isMaintenance = true → wo.docId ≠ k) →
      assocGet (ReflowService.scheduleMaintenanceOrders l st).updatedMap k
        = assocGet st.updatedMap k := by
  induction l with
  | nil => intro st k _; rfl
  | cons wo t ih =>
    intro st k hk
    rw [schedMaint_cons, ih _ k (fun w hw => hk w (List.mem_cons_of_mem _ hw))]
    cases hm : wo.data.isMaintenance with
    | false => rw [schedMaint_step_not st wo hm]
    | true =>
      rw [schedMaint_step_eq st wo hm]
      exact assocGet_set_ne _ _ (fun h => hk wo (List.mem_cons_self _ _) hm h.symm)

theorem schedMaint_slot_mono (l : List WorkOrder) :
    ∀ st wc slot, slot ∈ (assocGet st.workCenterSlots wc).getD [] →
      slot ∈ (assocGet
        (ReflowService.scheduleMaintenanceOrders l st).workCenterSlots wc).getD [] := by
  induction l with
  | nil => intro st wc slot h; exact h
  | cons wo t ih =>
    intro st wc slot h
    rw [schedMaint_cons]
    refine ih _ wc slot ?_
    cases hm : wo.data.isMaintenance with
    | false => rw [schedMaint_step_not st wo hm]; exact h
    | true =>
      rw [schedMaint_step_eq st wo hm]
      show slot ∈ (assocGet (ReflowService.addSlot st.workCenterSlots
        wo.data.workCenterId ⟨wo.docId, wo.data.startDate, wo.data.endDate⟩) wc).getD []
      rw [addSlot_get]
      by_cases hwc : wc = wo.data.workCenterId
      · subst hwc
        rw [if_pos rfl]
        exact List.mem_append_left _ h
      · rw [if_neg hwc]
        exact h

theorem schedMaint_mem (l : List WorkOrder) :
    ∀ st, (l.map WorkOrder.docId).Nodup → ∀ wo ∈ l, wo.data.isMaintenance = true →
      assocGet (ReflowService.scheduleMaintenanceOrders l st).updatedMap wo.docId
          = some wo ∧
      (⟨wo.docId, wo.data.startDate, wo.data.endDate⟩ : ScheduledSlot) ∈
        (assocGet (ReflowService.scheduleMaintenanceOrders l st).workCenterSlots
          wo.data.workCenterId).getD [] := by
  induction l with
  | nil => intro st _ wo hwo; simp at hwo
  | cons w t ih =>
    intro st hnd wo hwo hm
    simp only [List.map_cons, List.nodup_cons] at hnd
    rw [schedMaint_cons]
    rcases List.mem_cons.mp hwo with h1 | h1
    · subst h1
      rw [schedMaint_step_eq st wo hm]
      constructor
      · rw [schedMaint_frame t _ wo.docId
          (fun w2 hw2 _ h2 => hnd.1 (h2 ▸ List.mem_map_of_mem WorkOrder.docId hw2))]
        exact assocGet_set_self _ _ _
      · refine schedMaint_slot_mono t _ _ _ ?_
        show _ ∈ (assocGet (ReflowService.addSlot st.workCenterSlots
          wo.data.workCenterId ⟨wo.docId, wo.data.startDate, wo.data.endDate⟩)
          wo.data.workCenterId).getD []
        rw [addSlot_get, if_pos rfl]
        exact List.mem_append_right _ (List.mem_singleton_self _)
    · exact ih _ hnd.2 wo h1 hm

theorem schedule_foldl_mem (nodes : List (String × DependencyNode))
    (wcMap : List (String × WorkCenter)) (l : List WorkOrder) :
    ∀ st, (l.map WorkOrder.docId).Nodup → ∀ wo ∈ l,
      ∃ s e,
        assocGet (l.foldl (ReflowService.scheduleWorkOrder nodes wcMap) st).updatedMap
            wo.docId
          = some ⟨wo.docId, { wo.data with startDate := s, endDate := e }⟩ ∧
        wo.data.startDate ≤ s ∧
        (⟨wo.docId, s, e⟩ : ScheduledSlot) ∈
          (assocGet (l.foldl (ReflowService.scheduleWorkOrder nodes wcMap)
            st).workCenterSlots wo.data.workCenterId).getD [] := by
  induction l with
  | nil => intro st _ wo hwo; simp at hwo
  | cons w t ih =>
    intro st hnd wo hwo
    simp only [List.map_cons, List.nodup_cons] at hnd
    rw [List.foldl_cons]
    rcases List.mem_cons.mp hwo with h1 | h1
    · subst h1
      obtain ⟨s, e, hm, hs, _, hge, _, _⟩ := scheduleWorkOrder_step nodes wcMap st wo
      refine ⟨s, e, ?_, hge, ?_⟩
      · rw [schedule_foldl_frame nodes wcMap t _ wo.docId hnd.1, hm]
        exact assocGet_set_self _ _ _
      · refine schedule_foldl_slot_mono nodes wcMap t _ _ _ ?_
        rw [hs, addSlot_get, if_pos rfl]
        exact List.mem_append_right _ (List.mem_singleton_self _)
    · exact ih _ hnd.2 wo h1

/-! ### Ids, the priority sort, and the slot-compatibility invariant -/

theorem overlaps_comm (a b c d : Int) : overlaps a b c d = overlaps c d a b := by
  unfold overlaps
  exact Bool.and_comm _ _

theorem docId_inj (workOrders : List WorkOrder)
    (hnd : (workOrders.map WorkOrder.docId).Nodup) {a b : WorkOrder}
    (ha : a ∈ workOrders) (hb : b ∈ workOrders) (h : a.docId = b.docId) : a = b :=
  List.inj_on_of_nodup_map hnd ha hb h

theorem mem_sortByPriority (l : List WorkOrder) (wo : WorkOrder) :
    wo ∈ ReflowService.sortByPriority l ↔
      wo ∈ l ∧ wo.data.isMaintenance = false := by
  unfold ReflowService.sortByPriority
  rw [(List.perm_insertionSort ReflowService.priorityLE _).mem_iff, List.mem_filter,
    Bool.not_eq_true']

theorem sortByPriority_ids_nodup (l : List WorkOrder)
    (hnd : (l.map WorkOrder.docId).Nodup) :
    ((ReflowService.sortByPriority l).map WorkOrder.docId).Nodup := by
  unfold ReflowService.sortByPriority
  rw [((List.perm_insertionSort ReflowService.priorityLE _).map WorkOrder.docId).nodup_iff]
  exact hnd.sublist (List.Sublist.map WorkOrder.docId (List.filter_sublist l))

theorem not_mem_maintenanceIds (workOrders : List WorkOrder)
    (hnd : (workOrders.map WorkOrder.docId).Nodup) (wo : WorkOrder)
    (hwo : wo ∈ workOrders) (hm : wo.data.isMaintenance = false) :
    wo.docId ∉ maintenanceIds workOrders := by
  intro hmem
  unfold maintenanceIds at hmem
  obtain ⟨w2, hw2, hid⟩ := List.mem_map.mp hmem
  have hw2m := List.mem_filter.mp hw2
  have : w2 = wo := docId_inj workOrders hnd hw2m.1 hwo hid
  subst this
  rw [hm] at hw2m
  exact absurd hw2m.2 (by simp)

theorem mem_maintenanceIds (workOrders : List WorkOrder) (wo : WorkOrder)
    (hwo : wo ∈ workOrders) (hm : wo.data.isMaintenance = true) :
    wo.docId ∈ maintenanceIds workOrders := by
  unfold maintenanceIds
  exact List.mem_map_of_mem _ (List.mem_filter.mpr ⟨hwo, by rw [hm]⟩)

theorem pairwise_mem_or {α : Type} {R : α → α → Prop} (l : List α) (h : l.Pairwise R)
    {a b : α} (ha : a ∈ l) (hb : b ∈ l) (hne : a ≠ b) : R a b ∨ R b a := by
  induction l with
  | nil => simp at ha
  | cons x t ih =>
    rw [List.pairwise_cons] at h
    rcases List.mem_cons.mp ha with h1 | h1
    · rcases List.mem_cons.mp hb with h2 | h2
      · exact absurd (h1.trans h2.symm) hne
      · exact Or.inl (h1 ▸ h.1 b h2)
    · rcases List.mem_cons.mp hb with h2 | h2
      · exact Or.inr (h2 ▸ h.1 a h1)
      · exact ih h.2 h1 h2

theorem updMap_docId_schedMaint (l : List WorkOrder) :
    ∀ st, (∀ k u, assocGet st.updatedMap k = some u → u.docId = k) →
      ∀ k u, assocGet (ReflowService.scheduleMaintenanceOrders l st).updatedMap k
          = some u → u.docId = k := by
  induction l with
  | nil => intro st h; exact h
  | cons wo t ih =>
    intro st h
    rw [schedMaint_cons]
    refine ih _ ?_
    cases hm : wo.data.isMaintenance with
    | false => rw [schedMaint_step_not st wo hm]; exact h
    | true =>
      rw [schedMaint_step_eq st wo hm]
      intro k u hget
      rcases assocGet_set_cases _ _ _ _ _ hget with ⟨hk, hu⟩ | ⟨_, hold⟩
      · rw [hu, hk]
      · exact h k u hold

theorem updMap_docId_foldl (nodes : List (String × DependencyNode))
    (wcMap : List (String × WorkCenter)) (l : List WorkOrder) :
    ∀ st, (∀ k u, assocGet st.updatedMap k = some u → u.docId = k) →
      ∀ k u, assocGet
          (l.foldl (ReflowService.scheduleWorkOrder nodes wcMap) st).updatedMap k
          = some u → u.docId = k := by
  induction l with
  | nil => intro st h; exact h
  | cons wo t ih =>
    intro st h
    rw [List.foldl_cons]
    refine ih _ ?_
    obtain ⟨s, e, hm, _, _, _, _, _⟩ := scheduleWorkOrder_step nodes wcMap st wo
    rw [hm]
    intro k u hget
    rcases assocGet_set_cases _ _ _ _ _ hget with ⟨hk, hu⟩ | ⟨_, hold⟩
    · rw [hu, hk]
    · exact h k u hold

theorem schedMaint_slots_chara (l : List WorkOrder) :
    ∀ st wc slot,
      slot ∈ (assocGet (ReflowService.scheduleMaintenanceOrders l st).workCenterSlots
        wc).getD [] →
      slot ∈ (assocGet st.workCenterSlots wc).getD [] ∨
        ∃ wo ∈ l, wo.data.isMaintenance = true ∧
          slot = ⟨wo.docId, wo.data.startDate, wo.data.endDate⟩ ∧
          wc = wo.data.workCenterId := by
  induction l with
  | nil => intro st wc slot h; exact Or.inl h
  | cons wo t ih =>
    intro st wc slot h
    rw [schedMaint_cons] at h
    rcases ih _ wc slot h with h1 | h1
    · cases hm : wo.data.isMaintenance with
      | false =>
        rw [schedMaint_step_not st wo hm] at h1
        exact Or.inl h1
      | true =>
        rw [schedMaint_step_eq st wo hm] at h1
        rw [show ({ st with
            updatedMap := assocSet wo.docId wo st.updatedMap
            workCenterSlots := ReflowService.addSlot st.workCenterSlots
              wo.data.workCenterId
              ⟨wo.docId, wo.data.startDate, wo.data.endDate⟩ } :
            ReflowService.ReflowState).workCenterSlots
          = ReflowService.addSlot st.workCenterSlots wo.data.workCenterId
              ⟨wo.docId, wo.data.startDate, wo.data.endDate⟩ from rfl,
          addSlot_get] at h1
        by_cases hwc : wc = wo.data.workCenterId
        · subst hwc
          rw [if_pos rfl] at h1
          rcases List.mem_append.mp h1 with h2 | h2
          · exact Or.inl h2
          · refine Or.inr ⟨wo, List.mem_cons_self _ _, hm, ?_, rfl⟩
            exact List.mem_singleton.mp h2
        · rw [if_neg hwc] at h1
          exact Or.inl h1
    · obtain ⟨w2, hw2, hrest⟩ := h1
      exact Or.inr ⟨w2, List.mem_cons_of_mem _ hw2, hrest⟩

theorem schedule_foldl_slotsInv (nodes : List (String × DependencyNode))
    (wcMap : List (String × WorkCenter)) (maintIds : List String) (l : List WorkOrder) :
    ∀ st, SlotsInv maintIds st → (∀ wo ∈ l, wo.docId ∉ maintIds) →
      SlotsInv maintIds (l.foldl (ReflowService.scheduleWorkOrder nodes wcMap) st) := by
  induction l with
  | nil => intro st hinv _; exact hinv
  | cons wo t ih =>
    intro st hinv hids
    rw [List.foldl_cons]
    refine ih _ ?_ (fun w hw => hids w (List.mem_cons_of_mem _ hw))
    obtain ⟨s, e, _, hs, _, _, _, hnoc⟩ := scheduleWorkOrder_step nodes wcMap st wo
    intro wc
    rw [hs, addSlot_get]
    by_cases hwc : wc = wo.data.workCenterId
    · rw [if_pos hwc]
      rw [List.pairwise_append]
      refine ⟨hwc ▸ hinv wo.data.workCenterId, List.pairwise_singleton _ _, ?_⟩
      intro a ha b hb
      rw [List.mem_singleton.mp hb]
      constructor
      · intro hbm
        exact absurd hbm (hids wo (List.mem_cons_self _ _))
      · intro _
        rw [overlaps_comm]
        exact hnoc a (hwc ▸ ha)
    · rw [if_neg hwc]
      exact hinv wc

/-! ### The final scheduling state and the shape of the output -/

theorem hasCycle_false_of_acyclic (workOrders : List WorkOrder)
    (hnd : (workOrders.map WorkOrder.docId).Nodup)
    (hacyc : ¬ HasDepCycle workOrders) :
    (DependencyGraph.topologicalSort (DependencyGraph.build workOrders)).hasCycle
      = false := by
  cases hb : (DependencyGraph.topologicalSort (DependencyGraph.build workOrders)).hasCycle
  · rfl
  · exact absurd ((topologicalSort_hasCycle_iff workOrders hnd).mp hb) hacyc

theorem reflow_no_cycle_fields (input : ReflowInput)
    (h : (DependencyGraph.topologicalSort
      (DependencyGraph.build input.workOrders)).hasCycle = false) :
    (ReflowService.reflow input).updatedWorkOrders
      = input.workOrders.map
          (fun wo => (assocGet (reflowState input).updatedMap wo.docId).getD wo) ∧
    (ReflowService.reflow input).changes = (reflowState input).changes := by
  have hr := reflow_no_cycle_eq input h
  exact ⟨by rw [hr]; rfl, by rw [hr]; rfl⟩

theorem st2_entry_maint (input : ReflowInput)
    (hnd : (input.workOrders.map WorkOrder.docId).Nodup) (wo : WorkOrder)
    (hwo : wo ∈ input.workOrders) (hm : wo.data.isMaintenance = true) :
    assocGet (reflowState input).updatedMap wo.docId = some wo ∧
    (⟨wo.docId, wo.data.startDate, wo.data.endDate⟩ : ScheduledSlot) ∈
      (assocGet (reflowState input).workCenterSlots wo.data.workCenterId).getD [] := by
  obtain ⟨hget, hslot⟩ :=
    schedMaint_mem input.workOrders ⟨[], [], []⟩ hnd wo hwo hm
  have hnotin : wo.docId ∉
      (ReflowService.sortByPriority input.workOrders).map WorkOrder.docId := by
    intro hmem
    obtain ⟨w2, hw2, hid⟩ := List.mem_map.mp hmem
    obtain ⟨hw2in, hw2nm⟩ := (mem_sortByPriority _ _).mp hw2
    have : w2 = wo := docId_inj input.workOrders hnd hw2in hwo hid
    subst this
    rw [hw2nm] at hm
    exact Bool.false_ne_true hm
  constructor
  · rw [reflowState, schedule_foldl_frame _ _ _ _ _ hnotin]
    exact hget
  · exact schedule_foldl_slot_mono _ _ _ _ _ _ hslot

theorem st2_entry_nonmaint (input : ReflowInput)
    (hnd : (input.workOrders.map WorkOrder.docId).Nodup) (wo : WorkOrder)
    (hwo : wo ∈ input.workOrders) (hm : wo.data.isMaintenance = false) :
    ∃ s e,
      assocGet (reflowState input).updatedMap wo.docId
        = some ⟨wo.docId, { wo.data with startDate := s, endDate := e }⟩ ∧
      wo.data.startDate ≤ s ∧
      (⟨wo.docId, s, e⟩ : ScheduledSlot) ∈
        (assocGet (reflowState input).workCenterSlots wo.data.workCenterId).getD [] := by
  exact schedule_foldl_mem _ _ _ _ (sortByPriority_ids_nodup input.workOrders hnd)
    wo ((mem_sortByPriority _ _).mpr ⟨hwo, hm⟩)

theorem schedule_foldl_changes (nodes : List (String × DependencyNode))
    (wcMap : List (String × WorkCenter)) (l : List WorkOrder) :
    ∀ st c, c ∈ (l.foldl (ReflowService.scheduleWorkOrder nodes wcMap) st).changes →
      c ∈ st.changes ∨ ∃ w ∈ l, c.workOrderId = w.docId := by
  induction l with
  | nil => intro st c hc; exact Or.inl hc
  | cons wo t ih =>
    intro st c hc
    rw [List.foldl_cons] at hc
    obtain ⟨s, e, _, _, hch, _, _, _⟩ := scheduleWorkOrder_step nodes wcMap st wo
    rcases ih _ c hc with h1 | ⟨w, hw, hid⟩
    · rcases hch with h2 | ⟨c2, h2, hc2⟩
      · rw [h2] at h1
        exact Or.inl h1
      · rw [h2] at h1
        rcases List.mem_append.mp h1 with h3 | h3
        · exact Or.inl h3
        · rw [List.mem_singleton.mp h3]
          exact Or.inr ⟨wo, List.mem_cons_self _ _, hc2⟩
    · exact Or.inr ⟨w, List.mem_cons_of_mem _ hw, hid⟩

theorem st2_changes_owner (input : ReflowInput) (c : ReflowChange)
    (hc : c ∈ (reflowState input).changes) :
    ∃ w ∈ ReflowService.sortByPriority input.workOrders, c.workOrderId = w.docId := by
  rcases schedule_foldl_changes _ _ _ _ c hc with h1 | h1
  · rw [schedMaint_changes] at h1
    simp at h1
  · exact h1

theorem st2_slotsInv (input : ReflowInput)
    (hnd : (input.workOrders.map WorkOrder.docId).Nodup) :
    SlotsInv (maintenanceIds input.workOrders) (reflowState input) := by
  refine schedule_foldl_slotsInv _ _ _ _ _ ?_ ?_
  · intro wc
    refine List.pairwise_of_forall_mem_list ?_
    intro a ha b hb
    have hown : ∀ x, x ∈ (assocGet (ReflowService.scheduleMaintenanceOrders
        input.workOrders ⟨[], [], []⟩).workCenterSlots wc).getD [] →
        x.workOrderId ∈ maintenanceIds input.workOrders := by
      intro x hx
      rcases schedMaint_slots_chara input.workOrders ⟨[], [], []⟩ wc x hx with
        h1 | ⟨wo, hwo, hm, hx2, _⟩
      · simp [assocGet] at h1
      · rw [hx2]
        exact mem_maintenanceIds _ wo hwo hm
    exact ⟨fun _ => hown a ha, fun hb2 => absurd (hown b hb) hb2⟩
  · intro wo hwo
    obtain ⟨hin, hm⟩ := (mem_sortByPriority _ _).mp hwo
    exact not_mem_maintenanceIds input.workOrders hnd wo hin hm

theorem reflow_output_get (input : ReflowInput)
    (h : (DependencyGraph.topologicalSort
      (DependencyGraph.build input.workOrders)).hasCycle = false)
    (i : Nat) (hi : i < input.workOrders.length)
    (hi2 : i < (ReflowService.reflow input).updatedWorkOrders.length) :
    (ReflowService.reflow input).updatedWorkOrders.get ⟨i, hi2⟩
      = (assocGet (reflowState input).updatedMap
          (input.workOrders.get ⟨i, hi⟩).docId).getD (input.workOrders.get ⟨i, hi⟩) := by
  obtain ⟨hupd, _⟩ := reflow_no_cycle_fields input h
  rw [List.get_of_eq hupd ⟨i, hi2⟩]
  simp [List.get_eq_getElem]

/-! ### Claim C6: maintenance orders are immovable and never rescheduled -/

/-- C6.  For every acyclic input with unique order ids, the output work
order at the position of a maintenance order is the input order itself
(every field unchanged), and no change record is ever emitted for a
maintenance order. -/
theorem reflow_maintenance_verbatim (input : ReflowInput)
    (hnd : (input.workOrders.map WorkOrder.docId).Nodup)
    (hacyc : ¬ HasDepCycle input.workOrders) :
    (ReflowService.reflow input).updatedWorkOrders.length
      = input.workOrders.length ∧
    (∀ i (hi : i < input.workOrders.length)
        (hi2 : i < (ReflowService.reflow input).updatedWorkOrders.length),
      (input.workOrders.get ⟨i, hi⟩).data.isMaintenance = true →
      (ReflowService.reflow input).updatedWorkOrders.get ⟨i, hi2⟩
        = input.workOrders.get ⟨i, hi⟩) ∧
    (∀ c ∈ (ReflowService.reflow input).changes, ∀ wo ∈ input.workOrders,
      wo.data.isMaintenance = true → c.workOrderId ≠ wo.docId) := by
  have hhc := hasCycle_false_of_acyclic input.workOrders hnd hacyc
  obtain ⟨hupd, hch⟩ := reflow_no_cycle_fields input hhc
  refine ⟨?_, ?_, ?_⟩
  · rw [hupd, List.length_map]
  · intro i hi hi2 hm
    have hmem : input.workOrders.get ⟨i, hi⟩ ∈ input.workOrders := List.get_mem _ _ _
    obtain ⟨hget, _⟩ := st2_entry_maint input hnd _ hmem hm
    rw [reflow_output_get input hhc i hi hi2, hget]
    rfl
  · intro c hc wo hwo hm heq
    rw [hch] at hc
    obtain ⟨w, hw, hid⟩ := st2_changes_owner input c hc
    obtain ⟨hwin, hwnm⟩ := (mem_sortByPriority _ _).mp hw
    have hww : w = wo := docId_inj input.workOrders hnd hwin hwo (hid.symm.trans heq)
    rw [hww, hm] at hwnm
    exact absurd hwnm (by simp)

/-- Witness for C6 at the concrete input `exC2`, whose two orders are
maintenance orders. -/
theorem reflow_maintenance_verbatim_witness :
    (ReflowService.reflow exC2).updatedWorkOrders.length = exC2.workOrders.length ∧
    (ReflowService.reflow exC2).updatedWorkOrders.get ⟨0, by decide⟩
      = exC2.workOrders.get ⟨0, by decide⟩ := by
  have h := reflow_maintenance_verbatim exC2 (by decide)
    (not_hasDepCycle_of_rank _ (fun _ => 0) (by decide))
  exact ⟨h.1, h.2.1 0 (by decide) (by decide) (by decide)⟩

/-! ### Claim C10: starts only move later -/

/-- C10.  For every acyclic input with unique order ids, every
non-maintenance order's new start instant is at or after its original start
instant: the engine only ever delays a start. -/
theorem reflow_start_never_earlier (input : ReflowInput)
    (hnd : (input.workOrders.map WorkOrder.docId).Nodup)
    (hacyc : ¬ HasDepCycle input.workOrders) :
    (ReflowService.reflow input).updatedWorkOrders.length
      = input.workOrders.length ∧
    ∀ i (hi : i < input.workOrders.length)
        (hi2 : i < (ReflowService.reflow input).updatedWorkOrders.length),
      (input.workOrders.get ⟨i, hi⟩).data.isMaintenance = false →
      (input.workOrders.get ⟨i, hi⟩).data.startDate
        ≤ ((ReflowService.reflow input).updatedWorkOrders.get ⟨i, hi2⟩).data.startDate := by
  have hhc := hasCycle_false_of_acyclic input.workOrders hnd hacyc
  obtain ⟨hupd, _⟩ := reflow_no_cycle_fields input hhc
  refine ⟨by rw [hupd, List.length_map], ?_⟩
  intro i hi hi2 hm
  have hmem : input.workOrders.get ⟨i, hi⟩ ∈ input.workOrders := List.get_mem _ _ _
  obtain ⟨s, e, hget, hge, _⟩ := st2_entry_nonmaint input hnd _ hmem hm
  rw [reflow_output_get input hhc i hi hi2, hget]
  exact hge

/-- Witness for C10 at the concrete acyclic input `exC1`. -/
theorem reflow_start_never_earlier_witness :
    (exC1.workOrders.get ⟨0, by decide⟩).data.startDate
      ≤ ((ReflowService.reflow exC1).updatedWorkOrders.get
          ⟨0, by decide⟩).data.startDate := by
  have h := reflow_start_never_earlier exC1 (by decide)
    (not_hasDepCycle_of_rank _ (fun id => if id = "B" then 0 else 1) (by decide))
  exact h.2 0 (by decide) (by decide) (by decide)

/-! ### Claim C5: processing order is the priority order -/

/-- C5.  For every acyclic input with unique order ids, `reflow` processes
exactly the non-maintenance orders, in a sequence that is a permutation of
them and is sorted by ascending priority (missing priority read as 3) with
ties broken by ascending original start instant; the whole result of
`reflow` is the fold of the placement step over that sequence. -/
theorem reflow_priority_order (input : ReflowInput)
    (hnd : (input.workOrders.map WorkOrder.docId).Nodup)
    (hacyc : ¬ HasDepCycle input.workOrders) :
    List.Perm (ReflowService.sortByPriority input.workOrders)
      (input.workOrders.filter (fun wo => !wo.data.isMaintenance)) ∧
    List.Sorted ReflowService.priorityLE (ReflowService.sortByPriority input.workOrders) ∧
    ReflowService.reflow input =
      { updatedWorkOrders := input.workOrders.map
          (fun wo => (assocGet (reflowState input).updatedMap wo.docId).getD wo)
        changes := (reflowState input).changes
        explanation := ReflowService.buildExplanation (reflowState input).changes
        metrics := ReflowService.calculateMetrics input.workOrders
          (input.workOrders.map
            (fun wo => (assocGet (reflowState input).updatedMap wo.docId).getD wo))
          (reflowState input).changes input.workCenters
          (reflowState input).workCenterSlots } := by
  have hhc := hasCycle_false_of_acyclic input.workOrders hnd hacyc
  refine ⟨List.perm_insertionSort _ _, ?_, ?_⟩
  · haveI hto : IsTotal WorkOrder ReflowService.priorityLE := ⟨fun a b => by
      unfold ReflowService.priorityLE ReflowService.priorityOf
      omega⟩
    haveI htr : IsTrans WorkOrder ReflowService.priorityLE := ⟨fun a b c hab hbc => by
      unfold ReflowService.priorityLE ReflowService.priorityOf at *
      omega⟩
    exact List.sorted_insertionSort _ _
  · rw [reflow_no_cycle_eq input hhc]
    rfl

/-- Witness for C5 at the concrete acyclic input `exC1`. -/
theorem reflow_priority_order_witness :
    List.Perm (ReflowService.sortByPriority exC1.workOrders)
      (exC1.workOrders.filter (fun wo => !wo.data.isMaintenance)) ∧
    List.Sorted ReflowService.priorityLE (ReflowService.sortByPriority exC1.workOrders) := by
  have h := reflow_priority_order exC1 (by decide)
    (not_hasDepCycle_of_rank _ (fun id => if id = "B" then 0 else 1) (by decide))
  exact ⟨h.1, h.2.1⟩

/-! ### Resolving output orders and their slots -/

theorem getDependencies_build (workOrders : List WorkOrder)
    (hnd : (workOrders.map WorkOrder.docId).Nodup) (wo : WorkOrder)
    (hwo : wo ∈ workOrders) :
    DependencyGraph.getDependencies (DependencyGraph.build workOrders) wo.docId
      = wo.data.dependsOnWorkOrderIds := by
  unfold DependencyGraph.getDependencies
  rw [build_get workOrders hnd, find?_docId_eq_some workOrders hnd hwo]
  rfl

theorem maint_id_not_in_sorted (workOrders : List WorkOrder)
    (hnd : (workOrders.map WorkOrder.docId).Nodup) (d : WorkOrder)
    (hd : d ∈ workOrders) (hm : d.data.isMaintenance = true) :
    d.docId ∉ (ReflowService.sortByPriority workOrders).map WorkOrder.docId := by
  intro hmem
  obtain ⟨w2, hw2, hid⟩ := List.mem_map.mp hmem
  obtain ⟨hw2in, hw2nm⟩ := (mem_sortByPriority _ _).mp hw2
  have hww : w2 = d := docId_inj workOrders hnd hw2in hd hid
  rw [hww, hm] at hw2nm
  exact absurd hw2nm (by simp)

theorem reflowState_docId (input : ReflowInput) :
    ∀ k u, assocGet (reflowState input).updatedMap k = some u → u.docId = k := by
  refine updMap_docId_foldl _ _ _ _ (updMap_docId_schedMaint _ _ ?_)
  intro k u h
  simp [assocGet] at h

theorem reflow_output_resolve (input : ReflowInput)
    (hnd : (input.workOrders.map WorkOrder.docId).Nodup)
    (hhc : (DependencyGraph.topologicalSort
      (DependencyGraph.build input.workOrders)).hasCycle = false)
    (w : WorkOrder) (hw : w ∈ input.workOrders) :
    ∀ uo ∈ (ReflowService.reflow input).updatedWorkOrders, uo.docId = w.docId →
      uo = (assocGet (reflowState input).updatedMap w.docId).getD w := by
  intro uo huo hid
  obtain ⟨hupd, _⟩ := reflow_no_cycle_fields input hhc
  rw [hupd] at huo
  obtain ⟨w2, hw2, hfw2⟩ := List.mem_map.mp huo
  have hw2id : uo.docId = w2.docId := by
    cases hg : assocGet (reflowState input).updatedMap w2.docId with
    | none =>
      rw [← hfw2, hg]
      rfl
    | some u =>
      have hu := reflowState_docId input w2.docId u hg
      rw [← hfw2, hg]
      exact hu
  have hww : w2 = w := docId_inj input.workOrders hnd hw2 hw (hw2id.symm.trans hid)
  rw [← hfw2, hww]

theorem output_slot (input : ReflowInput)
    (hnd : (input.workOrders.map WorkOrder.docId).Nodup)
    (hhc : (DependencyGraph.topologicalSort
      (DependencyGraph.build input.workOrders)).hasCycle = false)
    (i : Nat) (hi : i < input.workOrders.length)
    (hi2 : i < (ReflowService.reflow input).updatedWorkOrders.length) :
    ∃ slot : ScheduledSlot,
      slot ∈ (assocGet (reflowState input).workCenterSlots
        (((ReflowService.reflow input).updatedWorkOrders.get
          ⟨i, hi2⟩).data.workCenterId)).getD [] ∧
      slot.workOrderId = (input.workOrders.get ⟨i, hi⟩).docId ∧
      slot.start = ((ReflowService.reflow input).updatedWorkOrders.get
        ⟨i, hi2⟩).data.startDate ∧
      slot.endTime = ((ReflowService.reflow input).updatedWorkOrders.get
        ⟨i, hi2⟩).data.endDate ∧
      (slot.workOrderId ∈ maintenanceIds input.workOrders ↔
        ((ReflowService.reflow input).updatedWorkOrders.get
          ⟨i, hi2⟩).data.isMaintenance = true) := by
  have hmem : input.workOrders.get ⟨i, hi⟩ ∈ input.workOrders := List.get_mem _ _ _
  have hout := reflow_output_get input hhc i hi hi2
  cases hm : (input.workOrders.get ⟨i, hi⟩).data.isMaintenance with
  | true =>
    obtain ⟨hget, hslot⟩ := st2_entry_maint input hnd _ hmem hm
    have hui : (ReflowService.reflow input).updatedWorkOrders.get ⟨i, hi2⟩
        = input.workOrders.get ⟨i, hi⟩ := by
      rw [hout, hget]
      rfl
    refine ⟨⟨(input.workOrders.get ⟨i, hi⟩).docId,
      (input.workOrders.get ⟨i, hi⟩).data.startDate,
      (input.workOrders.get ⟨i, hi⟩).data.endDate⟩, ?_, rfl, ?_, ?_, ?_⟩
    · rw [hui]
      exact hslot
    · rw [hui]
    · rw [hui]
    · rw [hui]
      constructor
      · intro _; exact hm
      · intro _; exact mem_maintenanceIds _ _ hmem hm
  | false =>
    obtain ⟨s, e, hget, _, hslot⟩ := st2_entry_nonmaint input hnd _ hmem hm
    have hui : (ReflowService.reflow input).updatedWorkOrders.get ⟨i, hi2⟩
        = ⟨(input.workOrders.get ⟨i, hi⟩).docId,
            { (input.workOrders.get ⟨i, hi⟩).data with startDate := s, endDate := e }⟩ := by
      rw [hout, hget]
      rfl
    refine ⟨⟨(input.workOrders.get ⟨i, hi⟩).docId, s, e⟩, ?_, rfl, ?_, ?_, ?_⟩
    · rw [hui]
      exact hslot
    · rw [hui]
    · rw [hui]
    · rw [hui]
      constructor
      · intro hin
        exact absurd hin (not_mem_maintenanceIds input.workOrders hnd _ hmem hm)
      · intro hfalse
        rw [show (⟨(input.workOrders.get ⟨i, hi⟩).docId,
          { (input.workOrders.get ⟨i, hi⟩).data with startDate := s, endDate := e }⟩ :
          WorkOrder).data.isMaintenance
          = (input.workOrders.get ⟨i, hi⟩).data.isMaintenance from rfl, hm] at hfalse
        exact absurd hfalse (by simp)

/-! ### Claim C2 (amended): exclusivity outside maintenance pairs -/

/-- C2 (amended).  For every acyclic input with unique order ids, any two
output work orders at distinct positions on the same work center have
non-overlapping intervals, provided at least one of the two is a
non-maintenance order.  (Pairs of maintenance orders are placed verbatim and
may overlap; see the counterexample of the original claim.) -/
theorem reflow_exclusivity_amended (input : ReflowInput)
    (hnd : (input.workOrders.map WorkOrder.docId).Nodup)
    (hacyc : ¬ HasDepCycle input.workOrders) :
    ∀ i j (hi : i < input.workOrders.length) (hj : j < input.workOrders.length)
      (hi2 : i < (ReflowService.reflow input).updatedWorkOrders.length)
      (hj2 : j < (ReflowService.reflow input).updatedWorkOrders.length),
      i ≠ j →
      ((ReflowService.reflow input).updatedWorkOrders.get ⟨i, hi2⟩).data.workCenterId
        = ((ReflowService.reflow input).updatedWorkOrders.get
            ⟨j, hj2⟩).data.workCenterId →
      (((ReflowService.reflow input).updatedWorkOrders.get
          ⟨i, hi2⟩).data.isMaintenance = false ∨
        ((ReflowService.reflow input).updatedWorkOrders.get
          ⟨j, hj2⟩).data.isMaintenance = false) →
      overlaps
        (((ReflowService.reflow input).updatedWorkOrders.get ⟨i, hi2⟩).data.startDate)
        (((ReflowService.reflow input).updatedWorkOrders.get ⟨i, hi2⟩).data.endDate)
        (((ReflowService.reflow input).updatedWorkOrders.get ⟨j, hj2⟩).data.startDate)
        (((ReflowService.reflow input).updatedWorkOrders.get ⟨j, hj2⟩).data.endDate)
        = false := by
  have hhc := hasCycle_false_of_acyclic input.workOrders hnd hacyc
  intro i j hi hj hi2 hj2 hij hwc hnm
  have hid_ne : (input.workOrders.get ⟨i, hi⟩).docId
      ≠ (input.workOrders.get ⟨j, hj⟩).docId := by
    intro h
    have h2 : (input.workOrders.map WorkOrder.docId).get
        ⟨i, by rw [List.length_map]; exact hi⟩
        = (input.workOrders.map WorkOrder.docId).get
        ⟨j, by rw [List.length_map]; exact hj⟩ := by
      simp only [List.get_eq_getElem, List.getElem_map]
      exact h
    have := hnd.get_inj_iff.mp h2
    exact hij (congrArg Fin.val this)
  obtain ⟨si, hsi_mem, hsi_own, hsi_start, hsi_end, hsi_maint⟩ :=
    output_slot input hnd hhc i hi hi2
  obtain ⟨sj, hsj_mem, hsj_own, hsj_start, hsj_end, hsj_maint⟩ :=
    output_slot input hnd hhc j hj hj2
  rw [hwc] at hsi_mem
  have hslot_ne : si ≠ sj := by
    intro h
    rw [h, hsj_own] at hsi_own
    exact hid_ne hsi_own.symm
  have hpw := st2_slotsInv input hnd
    (((ReflowService.reflow input).updatedWorkOrders.get ⟨j, hj2⟩).data.workCenterId)
  rcases pairwise_mem_or _ hpw hsi_mem hsj_mem hslot_ne with ⟨hc1, hc2⟩ | ⟨hc1, hc2⟩
  · by_cases hjm : sj.workOrderId ∈ maintenanceIds input.workOrders
    · have hj_maint := hsj_maint.mp hjm
      have hi_nm : ((ReflowService.reflow input).updatedWorkOrders.get
          ⟨i, hi2⟩).data.isMaintenance = false := by
        rcases hnm with h | h
        · exact h
        · rw [h] at hj_maint
          exact absurd hj_maint (by simp)
      have := hc1 hjm
      rw [hsi_maint] at this
      rw [hi_nm] at this
      exact absurd this (by simp)
    · have := hc2 hjm
      rw [hsi_start, hsi_end, hsj_start, hsj_end] at this
      exact this
  · by_cases him : si.workOrderId ∈ maintenanceIds input.workOrders
    · have hi_maint := hsi_maint.mp him
      have hj_nm : ((ReflowService.reflow input).updatedWorkOrders.get
          ⟨j, hj2⟩).data.isMaintenance = false := by
        rcases hnm with h | h
        · rw [h] at hi_maint
          exact absurd hi_maint (by simp)
        · exact h
      have := hc1 him
      rw [hsj_maint] at this
      rw [hj_nm] at this
      exact absurd this (by simp)
    · have := hc2 him
      rw [hsj_start, hsj_end, hsi_start, hsi_end] at this
      rw [overlaps_comm]
      exact this

/-- Witness for the amended C2 at the concrete input `exC1`: the two
non-maintenance orders share work center `"W"` and their output intervals do
not overlap. -/
theorem reflow_exclusivity_amended_witness :
    overlaps
      (((ReflowService.reflow exC1).updatedWorkOrders.get ⟨0, by decide⟩).data.startDate)
      (((ReflowService.reflow exC1).updatedWorkOrders.get ⟨0, by decide⟩).data.endDate)
      (((ReflowService.reflow exC1).updatedWorkOrders.get ⟨1, by decide⟩).data.startDate)
      (((ReflowService.reflow exC1).updatedWorkOrders.get ⟨1, by decide⟩).data.endDate)
      = false :=
  reflow_exclusivity_amended exC1 (by decide)
    (not_hasDepCycle_of_rank _ (fun id => if id = "B" then 0 else 1) (by decide))
    0 1 (by decide) (by decide) (by decide) (by decide) (by decide) (by decide)
    (Or.inl (by decide))

/-! ### Claim C1 (amended): dependency ordering for settled dependencies -/

/-- C1 (amended).  For every acyclic input with unique order ids, a work
order `o` scheduled by the engine starts at or after the new end of each of
its dependencies that was already settled when `o` was placed: every
dependency that is a maintenance order, and every dependency processed
before `o` in the priority order.  (A dependency processed after `o` is
ignored at `o`'s placement; see the counterexample of the original claim.) -/
theorem reflow_dependency_ordering_amended (input : ReflowInput)
    (hnd : (input.workOrders.map WorkOrder.docId).Nodup)
    (hacyc : ¬ HasDepCycle input.workOrders) :
    ∀ pre o suf, ReflowService.sortByPriority input.workOrders = pre ++ o :: suf →
    ∀ d ∈ input.workOrders, d.docId ∈ o.data.dependsOnWorkOrderIds →
    (d.data.isMaintenance = true ∨ d ∈ pre) →
    ∀ uo ∈ (ReflowService.reflow input).updatedWorkOrders, uo.docId = o.docId →
    ∀ ud ∈ (ReflowService.reflow input).updatedWorkOrders, ud.docId = d.docId →
    ud.data.endDate ≤ uo.data.startDate := by
  have hhc := hasCycle_false_of_acyclic input.workOrders hnd hacyc
  intro pre o suf hsort d hd hdep hsettled uo huo huo_id ud hud hud_id
  have ho_sorted : o ∈ ReflowService.sortByPriority input.workOrders := by
    rw [hsort]
    exact List.mem_append_right _ (List.mem_cons_self _ _)
  obtain ⟨ho_in, ho_nm⟩ := (mem_sortByPriority _ _).mp ho_sorted
  have hsnd := sortByPriority_ids_nodup input.workOrders hnd
  rw [hsort] at hsnd
  simp only [List.map_append, List.map_cons, List.nodup_append, List.nodup_cons,
    List.mem_cons, List.mem_append] at hsnd
  obtain ⟨hpre_nd, ⟨ho_suf, hsuf_nd⟩, hdisj⟩ := hsnd
  have ho_pre : o.docId ∉ pre.map WorkOrder.docId := by
    intro h
    exact (hdisj h) (List.mem_cons_self _ _)
  -- the fold decomposed at o's step
  have hst2 : reflowState input
      = suf.foldl (ReflowService.scheduleWorkOrder (DependencyGraph.build input.workOrders)
          (buildWorkCenterMap input.workCenters))
        (ReflowService.scheduleWorkOrder (DependencyGraph.build input.workOrders)
          (buildWorkCenterMap input.workCenters)
          (pre.foldl (ReflowService.scheduleWorkOrder
              (DependencyGraph.build input.workOrders)
              (buildWorkCenterMap input.workCenters))
            (ReflowService.scheduleMaintenanceOrders input.workOrders ⟨[], [], []⟩)) o) := by
    rw [reflowState, hsort, List.foldl_append, List.foldl_cons]
  obtain ⟨s, e, hm, _, _, _, hdepbound, _⟩ := scheduleWorkOrder_step
    (DependencyGraph.build input.workOrders) (buildWorkCenterMap input.workCenters)
    (pre.foldl (ReflowService.scheduleWorkOrder (DependencyGraph.build input.workOrders)
        (buildWorkCenterMap input.workCenters))
      (ReflowService.scheduleMaintenanceOrders input.workOrders ⟨[], [], []⟩)) o
  -- final entry for o
  have ho_entry : assocGet (reflowState input).updatedMap o.docId
      = some ⟨o.docId, { o.data with startDate := s, endDate := e }⟩ := by
    rw [hst2, schedule_foldl_frame _ _ _ _ _ ho_suf, hm]
    exact assocGet_set_self _ _ _
  -- `uo` is that entry
  have huo_eq : uo = ⟨o.docId, { o.data with startDate := s, endDate := e }⟩ := by
    have := reflow_output_resolve input hnd hhc o ho_in uo huo huo_id
    rw [ho_entry] at this
    exact this
  have hdep_o : d.docId ∈ DependencyGraph.getDependencies
      (DependencyGraph.build input.workOrders) o.docId := by
    rw [getDependencies_build input.workOrders hnd o ho_in]
    exact hdep
  rcases hsettled with hdm | hdpre
  · -- the dependency is a maintenance order: settled verbatim before the fold
    have hd_sorted := maint_id_not_in_sorted input.workOrders hnd d hd hdm
    have hd_pre : d.docId ∉ pre.map WorkOrder.docId := by
      intro h
      exact hd_sorted (by rw [hsort]; simp [h])
    obtain ⟨hd_st1, _⟩ := schedMaint_mem input.workOrders ⟨[], [], []⟩ hnd d hd hdm
    have hd_stP : assocGet (pre.foldl (ReflowService.scheduleWorkOrder
        (DependencyGraph.build input.workOrders) (buildWorkCenterMap input.workCenters))
        (ReflowService.scheduleMaintenanceOrders input.workOrders
          ⟨[], [], []⟩)).updatedMap d.docId = some d := by
      rw [schedule_foldl_frame _ _ _ _ _ hd_pre]
      exact hd_st1
    have hbound : d.data.endDate ≤ s := hdepbound d.docId hdep_o d hd_stP
    -- the final entry for d is still `d`
    obtain ⟨hd_st2, _⟩ := st2_entry_maint input hnd d hd hdm
    have hud_eq : ud = d := by
      have := reflow_output_resolve input hnd hhc d hd ud hud hud_id
      rw [hd_st2] at this
      exact this
    rw [huo_eq, hud_eq]
    exact hbound
  · -- the dependency was processed earlier in the priority order
    have hd_sorted : d ∈ ReflowService.sortByPriority input.workOrders := by
      rw [hsort]
      exact List.mem_append_left _ hdpre
    have hd_id_pre : d.docId ∈ pre.map WorkOrder.docId :=
      List.mem_map_of_mem _ hdpre
    obtain ⟨sd, ed, hd_stP, _, _⟩ := schedule_foldl_mem
      (DependencyGraph.build input.workOrders) (buildWorkCenterMap input.workCenters)
      pre (ReflowService.scheduleMaintenanceOrders input.workOrders ⟨[], [], []⟩)
      hpre_nd d hdpre
    have hbound : ed ≤ s := hdepbound d.docId hdep_o _ hd_stP
    -- the entry for d persists through o's step and the suffix
    have hdo_ne : d.docId ≠ o.docId := by
      intro h
      exact ho_pre (h ▸ hd_id_pre)
    have hd_suf : d.docId ∉ suf.map WorkOrder.docId := fun h =>
      (hdisj hd_id_pre) (List.mem_cons_of_mem _ h)
    have hd_st2 : assocGet (reflowState input).updatedMap d.docId
        = some ⟨d.docId, { d.data with startDate := sd, endDate := ed }⟩ := by
      rw [hst2, schedule_foldl_frame _ _ _ _ _ hd_suf, hm,
        assocGet_set_ne _ _ hdo_ne]
      exact hd_stP
    have hud_eq : ud = ⟨d.docId, { d.data with startDate := sd, endDate := ed }⟩ := by
      have := reflow_output_resolve input hnd hhc d hd ud hud hud_id
      rw [hd_st2] at this
      exact this
    rw [huo_eq, hud_eq]
    exact hbound

/-- Witness for the amended C1 at the concrete input `exD`: the dependency
`"DB"` has priority 1 and is placed before its dependent `"DA"` (priority
5), whose new start is then held at or after the new end of `"DB"`. -/
theorem reflow_dependency_ordering_amended_witness :
    ((ReflowService.reflow exD).updatedWorkOrders.get ⟨1, by decide⟩).data.endDate
      ≤ ((ReflowService.reflow exD).updatedWorkOrders.get
          ⟨0, by decide⟩).data.startDate :=
  reflow_dependency_ordering_amended exD (by decide)
    (not_hasDepCycle_of_rank _ (fun id => if id = "DB" then 0 else 1) (by decide))
    [exDB] exDA [] (by decide)
    exDB (by decide) (by decide) (Or.inr (by decide))
    _ (List.get_mem _ _ _) (by decide)
    _ (List.get_mem _ _ _) (by decide)

end ProdSched
